import Mathlib

/-!
Verification of the Abalone game core (`src/abalone`): geometry, move model,
legality engine, move generator, heuristic evaluator and the alpha-beta
search, shallowly embedded from the Python sources.

Conventions of the embedding:
* Python `Position`/`Direction` int pairs become `Int × Int`.
* The board's `cells` dict (keyed by the 61 valid positions) becomes a total
  function `Pos → Int`; `bget` mirrors `dict.get` (`none` off the board), and
  marble counts are taken over an explicit enumeration of the valid
  positions.  The enumeration order of the Python dict/set is modelled by an
  `order` parameter (any permutation of the valid positions); the canonical
  definitions fix the row-major order.
* The score dict becomes a total function `Int → Int`.
* Python's stable `sorted` becomes `List.insertionSort` (also stable).
* The push-chain `while` loops of `board.py` become fuel-based recursion;
  the fuel (100) strictly dominates the longest on-board walk (at most 10
  cells), which is proved where the claims need it.
-/

namespace Abalone

/-- Board position `(row, column)`: rows 0..8 bottom to top, columns 1..9,
mirroring `Position = Tuple[int, int]` in `abalone/game/board.py`. -/
abbrev Pos := Int × Int

/-- Direction vector `(row_delta, col_delta)`, mirroring `Direction`. -/
abbrev Direction := Int × Int

/-- Cell value `BLACK = 1` from `board.py`. -/
def BLACK : Int := 1

/-- Cell value `WHITE = 2` from `board.py`. -/
def WHITE : Int := 2

/-- Cell value `EMPTY = 0` from `board.py`. -/
def EMPTY : Int := 0

/-- The six hex directions (`DIRECTIONS` in `board.py`): E, W, NW, SE, NE, SW. -/
def DIRECTIONS : List Direction := [(0, 1), (0, -1), (1, 0), (-1, 0), (1, 1), (-1, -1)]

/-- The three positive axis directions (`POSITIVE_DIRS` in `state_space.py`). -/
def POSITIVE_DIRS : List Direction := [(0, 1), (1, 0), (1, 1)]

/-- `neighbor(pos, d)` from `board.py`: pure vector addition. -/
def neighbor (p : Pos) (d : Direction) : Pos := (p.1 + d.1, p.2 + d.2)

/-- `opposite_dir(d)` from `board.py`: negation. -/
def opposite_dir (d : Direction) : Direction := (-d.1, -d.2)

/-- `_build_valid_positions()` from `board.py`: rows `r = 0..8`; row `r`
spans columns `range(1, 6+r)` for `r ≤ 4` and `range(r-3, 10)` otherwise,
listed in row-major (lexicographic) order. -/
def validPositionsList : List Pos :=
  (List.range 9).flatMap fun r =>
    (if r ≤ 4 then List.range' 1 (5 + r) else List.range' (r - 3) (13 - r)).map
      fun (c : Nat) => ((r : Int), (c : Int))

/-- `is_valid(pos)` from `board.py`: membership in the valid-position set. -/
def isValid (p : Pos) : Bool := decide (p ∈ validPositionsList)

/-- Arithmetic characterisation of `isValid`. -/
theorem isValid_iff (p : Pos) :
    isValid p = true ↔
      (0 ≤ p.1 ∧ p.1 ≤ 8 ∧
        (if p.1 ≤ 4 then 1 ≤ p.2 ∧ p.2 ≤ 5 + p.1 else p.1 - 3 ≤ p.2 ∧ p.2 ≤ 9)) := by
  obtain ⟨pr, pc⟩ := p
  rw [isValid, decide_eq_true_eq, validPositionsList, List.mem_flatMap]
  constructor
  · rintro ⟨r, hr, hc⟩
    rw [List.mem_range] at hr
    rw [List.mem_map] at hc
    obtain ⟨c, hc1, hc2⟩ := hc
    rw [Prod.mk.injEq] at hc2
    obtain ⟨hceq1, hceq2⟩ := hc2
    subst hceq1; subst hceq2
    by_cases h4 : r ≤ 4
    · rw [if_pos h4, List.mem_range'_1] at hc1
      refine ⟨by omega, by omega, ?_⟩
      split <;> omega
    · rw [if_neg h4, List.mem_range'_1] at hc1
      refine ⟨by omega, by omega, ?_⟩
      split <;> omega
  · rintro ⟨h0, h8, hcol⟩
    refine ⟨pr.toNat, by rw [List.mem_range]; omega, ?_⟩
    rw [List.mem_map]
    by_cases h4 : pr ≤ 4
    · rw [if_pos h4] at hcol
      rw [if_pos (show pr.toNat ≤ 4 by omega)]
      refine ⟨pc.toNat, ?_, ?_⟩
      · rw [List.mem_range'_1]; omega
      · rw [Prod.mk.injEq]; omega
    · rw [if_neg h4] at hcol
      rw [if_neg (show ¬ pr.toNat ≤ 4 by omega)]
      refine ⟨pc.toNat, ?_, ?_⟩
      · rw [List.mem_range'_1]; omega
      · rw [Prod.mk.injEq]; omega

/-- Coarse coordinate bounds for valid positions. -/
theorem isValid_bounds (p : Pos) (h : isValid p = true) :
    0 ≤ p.1 ∧ p.1 ≤ 8 ∧ 1 ≤ p.2 ∧ p.2 ≤ 9 := by
  rw [isValid_iff] at h
  obtain ⟨h0, h8, hc⟩ := h
  split at hc <;> omega

/-- The Abalone board (`Board` in `board.py`): the `cells` dict over the 61
valid positions becomes a total function (only valid positions are ever read
or counted), and the two-entry `score` dict becomes a function on players. -/
structure Board where
  cells : Pos → Int
  score : Int → Int

/-- Pointwise update, modelling `cells[p] = v` (dict assignment). -/
def setCell (f : Pos → Int) (p : Pos) (v : Int) : Pos → Int :=
  fun q => if q = p then v else f q

/-- Pointwise update of the score dict, modelling `score[player] += 1` etc. -/
def setScore (f : Int → Int) (player : Int) (v : Int) : Int → Int :=
  fun q => if q = player then v else f q

/-- `Board.get` / `cells.get(pos)`: `none` for off-board positions. -/
def bget (b : Board) (p : Pos) : Option Int :=
  if isValid p then some (b.cells p) else none

/-- Python tuple order on positions (used by every `sorted(...)` on positions). -/
def posLe (a b : Pos) : Prop := a.1 < b.1 ∨ (a.1 = b.1 ∧ a.2 ≤ b.2)

instance : DecidableRel posLe := fun a b => by unfold posLe; exact inferInstance

instance : IsTotal Pos posLe := ⟨by intro a b; unfold posLe; omega⟩

instance : IsTrans Pos posLe := ⟨by intro a b c; unfold posLe; omega⟩

instance : IsAntisymm Pos posLe := by
  refine ⟨fun a b h1 h2 => ?_⟩
  unfold posLe at h1 h2
  have ha : a.1 = b.1 ∧ a.2 = b.2 := by omega
  exact Prod.ext ha.1 ha.2

/-- Python `sorted(...)` on a list of positions (stable, tuple order). -/
def sortPos (ms : List Pos) : List Pos := List.insertionSort posLe ms

/-- A candidate move (`Move` dataclass in `board.py`): an ordered tuple of
marble positions plus one direction. -/
structure Move where
  marbles : List Pos
  direction : Direction
deriving DecidableEq

/-- Scalar projection `m[0]*d[0] + m[1]*d[1]` used by `_leading_trailing`. -/
def dot (m : Pos) (d : Direction) : Int := m.1 * d.1 + m.2 * d.2

/-- `Move.is_inline`: a single marble is trivially inline, otherwise the
direction must be parallel or anti-parallel to the line of the first two
sorted marbles.  (Python raises on an empty marble tuple; the `true` result
for that unreachable case is arbitrary.) -/
def isInline (mv : Move) : Bool :=
  if mv.marbles.length = 1 then true
  else
    match sortPos mv.marbles with
    | m0 :: m1 :: _ =>
      let lineDir : Direction := (m1.1 - m0.1, m1.2 - m0.2)
      decide (mv.direction = lineDir ∨ mv.direction = opposite_dir lineDir)
    | _ => true

/-- Stable sort of the marbles by ascending projection on the direction,
as in `Move._leading_trailing`. -/
def projSort (d : Direction) (ms : List Pos) : List Pos :=
  List.insertionSort (fun a b => dot a d ≤ dot b d) ms

/-- The trailing marble (minimum projection, `_leading_trailing()[0]`). -/
def trailingOf (mv : Move) : Pos := (projSort mv.direction mv.marbles).headD (0, 0)

/-- The leading marble (maximum projection, `_leading_trailing()[1]`). -/
def leadingOf (mv : Move) : Pos := (projSort mv.direction mv.marbles).getLastD (0, 0)

/-- `ROW_LETTERS = 'abcdefghi'`. -/
def ROW_LETTERS : List String := ["a", "b", "c", "d", "e", "f", "g", "h", "i"]

/-- Row letter with Python's negative-index wraparound; out-of-range rows
raise `IndexError` in Python and are modelled by `""` (unreachable for
on-board rows). -/
def rowLetter (r : Int) : String :=
  if 0 ≤ r ∧ r < 9 then ROW_LETTERS.getD r.toNat ""
  else if -9 ≤ r ∧ r < 0 then ROW_LETTERS.getD (r + 9).toNat ""
  else ""

/-- `pos_to_str`: row letter followed by the decimal column. -/
def posToStr (p : Pos) : String := rowLetter p.1 ++ toString p.2

/-- `DIRECTION_NAMES` lookup (`""` models the Python `KeyError` case). -/
def dirName (d : Direction) : String :=
  if d = ((0 : Int), (1 : Int)) then "E"
  else if d = ((0 : Int), (-1 : Int)) then "W"
  else if d = ((1 : Int), (0 : Int)) then "NW"
  else if d = ((-1 : Int), (0 : Int)) then "SE"
  else if d = ((1 : Int), (1 : Int)) then "NE"
  else if d = ((-1 : Int), (-1 : Int)) then "SW"
  else ""

/-- `Move.to_notation(pushed)`, the canonical text rendering of a move. -/
def moveText (mv : Move) (pushed : Bool) : String :=
  if isInline mv then
    let trailing := trailingOf mv
    let goal := neighbor (leadingOf mv) mv.direction
    let pushStr := if pushed then "*" else ""
    toString mv.marbles.length ++ ":" ++ posToStr trailing ++ posToStr goal ++ pushStr
  else
    let sm := sortPos mv.marbles
    toString mv.marbles.length ++ ":" ++ posToStr (sm.headD (0, 0)) ++ "-" ++
      posToStr (sm.getLastD (0, 0)) ++ ">" ++ dirName mv.direction

/-- The opponent of a player (`WHITE if player == BLACK else BLACK`). -/
def oppOf (player : Int) : Int := if player = BLACK then WHITE else BLACK

/-- The index loop `for i in range(2, len(s)): s[i] == (s[0][0] + i*d[0], ...)`
of `_marbles_in_line`, walking the remaining sorted marbles with an explicit
index counter. -/
def apCheck (s0 : Pos) (d : Direction) : Nat → List Pos → Bool
  | _, [] => true
  | i, p :: rest =>
    decide (p = (s0.1 + (i : Int) * d.1, s0.2 + (i : Int) * d.2)) &&
      apCheck s0 d (i + 1) rest

/-- `Board._marbles_in_line`: at most one marble is trivially in line;
otherwise the sorted marbles must form an arithmetic progression whose step
is one of the six directions. -/
def marblesInLine (ms : List Pos) : Bool :=
  if ms.length ≤ 1 then true
  else
    match sortPos ms with
    | s0 :: s1 :: rest =>
      let d : Direction := (s1.1 - s0.1, s1.2 - s0.2)
      decide (d ∈ DIRECTIONS) && apCheck s0 d 2 rest
    | _ => true

/-- Fuel bound for the push-chain walks; any on-board walk stops after at
most 10 steps (`walk_stops`), so 100 never runs out. -/
def WALK_FUEL : Nat := 100

/-- The contiguous chain of opponent marbles starting at `pos` along `d`
(the `while is_valid(pos) and cells[pos] == opponent` walks in
`_check_inline` / `_apply_inline`, collected into a list). -/
def collectPushed (cells : Pos → Int) (opponent : Int) (d : Direction) :
    Nat → Pos → List Pos
  | 0, _ => []
  | fuel + 1, pos =>
    if isValid pos ∧ cells pos = opponent then
      pos :: collectPushed cells opponent d fuel (neighbor pos d)
    else []

/-- The `pos` variable left over after the chain walk: the first cell after
the contiguous opponent chain. -/
def walkEnd (cells : Pos → Int) (opponent : Int) (d : Direction) :
    Nat → Pos → Pos
  | 0, pos => pos
  | fuel + 1, pos =>
    if isValid pos ∧ cells pos = opponent then
      walkEnd cells opponent d fuel (neighbor pos d)
    else pos

/-- `n` steps from `p` along `d`. -/
def stepN (p : Pos) (d : Direction) : Nat → Pos
  | 0 => p
  | n + 1 => stepN (neighbor p d) d n

/-- `Board._check_inline`: legality of an inline move (push rules). -/
def checkInline (b : Board) (mv : Move) (player opponent : Int) : Bool :=
  let d := mv.direction
  let ahead := neighbor (leadingOf mv) d
  if ¬ isValid ahead then false
  else if b.cells ahead = EMPTY then true
  else if b.cells ahead = player then false
  else
    let pushedCount := (collectPushed b.cells opponent d WALK_FUEL ahead).length
    if mv.marbles.length ≤ pushedCount then false
    else
      let posEnd := walkEnd b.cells opponent d WALK_FUEL ahead
      if isValid posEnd ∧ b.cells posEnd ≠ EMPTY then false
      else true

/-- `Board._check_broadside`: every destination must be on-board and empty. -/
def checkBroadside (b : Board) (mv : Move) : Bool :=
  mv.marbles.all fun m =>
    let dest := neighbor m mv.direction
    isValid dest && decide (b.cells dest = EMPTY)

/-- `Board.is_legal_move`: ownership, then colinearity/contiguity, then the
inline or broadside branch. -/
def isLegalMove (b : Board) (mv : Move) (player : Int) : Bool :=
  if mv.marbles.all fun m => decide (bget b m = some player) then
    if marblesInLine mv.marbles then
      if isInline mv then checkInline b mv player (oppOf player)
      else checkBroadside b mv
    else false
  else false

/-- The result dict of `Board.apply_move`. -/
structure ApplyOutcome where
  pushed : List String
  pushoff : Bool
deriving DecidableEq

/-- One iteration of the pushed-marble loop of `_apply_inline`: move the
opponent marble at `p` one step ahead (only if the destination is on the
board), then clear `p`. -/
def pushStep (opponent : Int) (d : Direction) (cs : Pos → Int) (p : Pos) :
    Pos → Int :=
  setCell
    (if isValid (neighbor p d) then setCell cs (neighbor p d) opponent else cs)
    p EMPTY

/-- One iteration of the own-marble loop of `_apply_inline`: occupy the
destination, then clear the vacated cell. -/
def ownStep (player : Int) (d : Direction) (cs : Pos → Int) (m : Pos) :
    Pos → Int :=
  setCell (setCell cs (neighbor m d) player) m EMPTY

/-- `Board._apply_inline`: push the opponent chain (farthest first, scoring
a push-off), then relocate the mover's marbles leading-first. -/
def applyInline (b : Board) (mv : Move) (player opponent : Int) :
    Board × ApplyOutcome :=
  let d := mv.direction
  let ahead := neighbor (leadingOf mv) d
  let pushed := collectPushed b.cells opponent d WALK_FUEL ahead
  let posEnd := walkEnd b.cells opponent d WALK_FUEL ahead
  let pushoff := pushed ≠ [] ∧ ¬ isValid posEnd
  let score' :=
    if pushoff then setScore b.score player (b.score player + 1) else b.score
  let cells₁ := pushed.reverse.foldl (pushStep opponent d) b.cells
  let own := List.insertionSort (fun a b => dot b d ≤ dot a d) mv.marbles
  let cells₂ := own.foldl (ownStep player d) cells₁
  (⟨cells₂, score'⟩, ⟨pushed.map posToStr, decide pushoff⟩)

/-- `Board._apply_broadside`: clear every source cell, then fill every
destination cell. -/
def applyBroadside (b : Board) (mv : Move) (player : Int) : Board :=
  let d := mv.direction
  let cleared := mv.marbles.foldl (fun cs m => setCell cs m EMPTY) b.cells
  let filled := mv.marbles.foldl (fun cs m => setCell cs (neighbor m d) player) cleared
  ⟨filled, b.score⟩

/-- `Board.apply_move`, returning the mutated board plus the result info. -/
def applyMove (b : Board) (mv : Move) (player : Int) : Board × ApplyOutcome :=
  if isInline mv then applyInline b mv player (oppOf player)
  else (applyBroadside b mv player, ⟨[], false⟩)

/-- `Board.get_marbles(player)`: the player's marble positions in sorted
(tuple) order.  `order` models the iteration order of the Python cells
dict; the canonical definitions instantiate it with `validPositionsList`. -/
def getMarblesO (order : List Pos) (b : Board) (player : Int) : List Pos :=
  sortPos (order.filter fun p => decide (b.cells p = player))

/-- `Board.marble_count(player)`: number of cells holding the player. -/
def marbleCountO (order : List Pos) (b : Board) (player : Int) : Nat :=
  order.countP fun p => decide (b.cells p = player)

/-- Canonical instantiation of `getMarblesO`. -/
def getMarbles (b : Board) (player : Int) : List Pos :=
  getMarblesO validPositionsList b player

/-- Canonical instantiation of `marbleCountO`. -/
def marbleCount (b : Board) (player : Int) : Nat :=
  marbleCountO validPositionsList b player

/-- Key used by `generate_legal_moves` for deduplication:
`(tuple(sorted(marbles)), direction)`. -/
abbrev MoveKey := List Pos × Direction

/-- State of the generator loop: the `seen` key set and the accumulated
legal moves, in insertion order. -/
structure GenState where
  seen : List MoveKey
  moves : List Move
deriving DecidableEq

/-- The local `_add` helper of `generate_legal_moves`: skip seen keys,
record the key, keep the move only if it is legal. -/
def addCandidate (b : Board) (player : Int) (st : GenState)
    (ms : List Pos) (d : Direction) : GenState :=
  let key : MoveKey := (sortPos ms, d)
  if key ∈ st.seen then st
  else
    let mv : Move := ⟨sortPos ms, d⟩
    if isLegalMove b mv player then ⟨key :: st.seen, st.moves ++ [mv]⟩
    else ⟨key :: st.seen, st.moves⟩

/-- The candidate (marbles, direction) pairs tried for one marble `m`:
singles in all six directions, then pairs and triples extended along the
positive axes when the extension marbles also belong to the mover. -/
def marbleCandidates (marbleSet : List Pos) (m : Pos) :
    List (List Pos × Direction) :=
  (DIRECTIONS.map fun d => ([m], d))
  ++ (POSITIVE_DIRS.flatMap fun pd =>
      let m2 := neighbor m pd
      if m2 ∈ marbleSet then DIRECTIONS.map fun d => ([m, m2], d) else [])
  ++ (POSITIVE_DIRS.flatMap fun pd =>
      let m2 := neighbor m pd
      let m3 := neighbor m2 pd
      if m2 ∈ marbleSet ∧ m3 ∈ marbleSet then
        DIRECTIONS.map fun d => ([m, m2, m3], d)
      else [])

/-- `generate_legal_moves(board, player)` from `state_space.py`. -/
def generateLegalMovesO (order : List Pos) (b : Board) (player : Int) :
    List Move :=
  let marbles := getMarblesO order b player
  let cands := marbles.flatMap fun m => marbleCandidates marbles m
  (cands.foldl (fun st c => addCandidate b player st c.1 c.2) ⟨[], []⟩).moves

/-- Canonical instantiation of `generateLegalMovesO`. -/
def generateLegalMoves (b : Board) (player : Int) : List Move :=
  generateLegalMovesO validPositionsList b player

/-- `CENTER = (4, 5)` from `heuristics.py`. -/
def CENTER : Pos := (4, 5)

/-- A heuristic weight profile (`HEURISTIC_PRESETS` values).  The float
weights are whole numbers and all evaluation terms are integers, so the
Python float arithmetic is exact and is modelled over `Int`. -/
structure Weights where
  score : Int
  material : Int
  center : Int
  mobility : Int

/-- `HEURISTIC_PRESETS.get(preset, HEURISTIC_PRESETS["balanced"])`. -/
def presetWeights (preset : String) : Weights :=
  if preset = "balanced" then ⟨1400, 40, 4, 1⟩
  else if preset = "material" then ⟨1800, 50, 0, 0⟩
  else ⟨1400, 40, 4, 1⟩

/-- `score_advantage`. -/
def scoreAdvantage (b : Board) (player : Int) : Int :=
  b.score player - b.score (oppOf player)

/-- `material_advantage`. -/
def materialAdvantageO (order : List Pos) (b : Board) (player : Int) : Int :=
  (marbleCountO order b player : Int) - (marbleCountO order b (oppOf player) : Int)

/-- The inner `center_sum` of `center_control`. -/
def centerSumO (order : List Pos) (b : Board) (color : Int) : Int :=
  ((getMarblesO order b color).map fun p =>
    |p.1 - CENTER.1| + |p.2 - CENTER.2|).sum

/-- `center_control`. -/
def centerControlO (order : List Pos) (b : Board) (player : Int) : Int :=
  centerSumO order b (oppOf player) - centerSumO order b player

/-- `mobility`: difference in legal-move counts. -/
def mobilityO (order : List Pos) (b : Board) (player : Int) : Int :=
  ((generateLegalMovesO order b player).length : Int)
    - ((generateLegalMovesO order b (oppOf player)).length : Int)

/-- `evaluate_board(board, player, preset)`. -/
def evaluateBoardO (order : List Pos) (b : Board) (player : Int)
    (preset : String) : Int :=
  let w := presetWeights preset
  w.score * scoreAdvantage b player
    + w.material * materialAdvantageO order b player
    + w.center * centerControlO order b player
    + w.mobility * mobilityO order b player

/-- Canonical instantiation of `evaluateBoardO`. -/
def evaluateBoard (b : Board) (player : Int) (preset : String) : Int :=
  evaluateBoardO validPositionsList b player preset

/-- `AgentConfig` from `players/types.py` (defaults `2/balanced/lexicographic`). -/
structure AgentConfig where
  depth : Nat
  heuristic : String
  tie_break : String

/-- The default `AgentConfig()`. -/
def defaultConfig : AgentConfig := ⟨2, "balanced", "lexicographic"⟩

/-- `_is_terminal`: either score has reached 6. -/
def isTerminal (b : Board) : Bool :=
  decide (6 ≤ b.score BLACK ∨ 6 ≤ b.score WHITE)

/-- `_is_push_move`: an inline multi-marble move whose cell ahead of the
leading marble holds an opponent marble. -/
def isPushMove (b : Board) (player : Int) (mv : Move) : Bool :=
  if ¬ isInline mv ∨ mv.marbles.length < 2 then false
  else
    let ahead := neighbor (leadingOf mv) mv.direction
    isValid ahead && decide (bget b ahead = some (oppOf player))

/-- The Python sort key of `_ordered_moves`:
`(push-first flag, -count, to_notation())`. -/
def moveOrderKey (b : Board) (player : Int) (mv : Move) : Int × Int × String :=
  (if isPushMove b player mv then 0 else 1,
   -(mv.marbles.length : Int),
   moveText mv false)

/-- Non-strict lexicographic comparison of sort keys (Python tuple `<=`,
with string comparison by code points). -/
def keyLe (k₁ k₂ : Int × Int × String) : Prop :=
  k₁.1 < k₂.1 ∨ (k₁.1 = k₂.1 ∧
    (k₁.2.1 < k₂.2.1 ∨ (k₁.2.1 = k₂.2.1 ∧ ¬ k₂.2.2 < k₁.2.2)))

instance : DecidableRel keyLe := fun a b => by unfold keyLe; exact inferInstance

/-- `_ordered_moves`: stable sort by `moveOrderKey` ascending. -/
def orderedMoves (b : Board) (player : Int) (moves : List Move) : List Move :=
  List.insertionSort
    (fun m₁ m₂ => keyLe (moveOrderKey b player m₁) (moveOrderKey b player m₂))
    moves

/-- `_prefer_by_tie_break`. -/
def preferByTieBreak (cfg : AgentConfig) (candidate : Move)
    (incumbent : Option Move) : Bool :=
  match incumbent with
  | none => true
  | some inc =>
    if cfg.tie_break = "lexicographic" then
      decide (moveText candidate false < moveText inc false)
    else false

/-- Search values: integers extended with `-inf` / `+inf`
(Python `float('-inf')` / `float('inf')`). -/
abbrev EV := WithBot (WithTop Int)

/-- Embedding of a finite evaluation into `EV`. -/
def toEV (n : Int) : EV := ((n : WithTop Int) : WithBot (WithTop Int))

/-- Result of one `_minimax` call: value, best move, and the number of
nodes the call added to `stats["nodes"]`. -/
structure MMOut where
  value : EV
  move : Option Move
  nodes : Nat
deriving DecidableEq

/-- State of the move loop inside `_minimax`: running best value and move,
the adapting window bound (`alpha` when maximizing, `beta` when
minimizing), the node count, and whether the loop has hit `break`. -/
structure MMState where
  best : EV
  bestMove : Option Move
  bound : EV
  nodes : Nat
  stopped : Bool

/-- The maximizing move loop of `_minimax` (`bound` is the running alpha;
`rec` performs the recursive call on a child board with a given alpha). -/
def abMaxLoop (cfg : AgentConfig) (applyStep : Move → Board)
    (rec : Board → EV → MMOut) (beta : EV) :
    List Move → MMState → MMState
  | [], st => st
  | mv :: rest, st =>
    if st.stopped then st
    else
      let out := rec (applyStep mv) st.bound
      let upd : Bool :=
        decide (st.best < out.value) ||
          (decide (out.value = st.best) && preferByTieBreak cfg mv st.bestMove)
      let best' := if upd then out.value else st.best
      let bm' := if upd then some mv else st.bestMove
      let alpha' := max st.bound best'
      abMaxLoop cfg applyStep rec beta rest
        ⟨best', bm', alpha', st.nodes + out.nodes, decide (beta ≤ alpha')⟩

/-- The minimizing move loop of `_minimax` (`bound` is the running beta;
`rec` performs the recursive call on a child board with a given beta). -/
def abMinLoop (cfg : AgentConfig) (applyStep : Move → Board)
    (rec : Board → EV → MMOut) (alpha : EV) :
    List Move → MMState → MMState
  | [], st => st
  | mv :: rest, st =>
    if st.stopped then st
    else
      let out := rec (applyStep mv) st.bound
      let upd : Bool :=
        decide (out.value < st.best) ||
          (decide (out.value = st.best) && preferByTieBreak cfg mv st.bestMove)
      let best' := if upd then out.value else st.best
      let bm' := if upd then some mv else st.bestMove
      let beta' := min st.bound best'
      abMinLoop cfg applyStep rec alpha rest
        ⟨best', bm', beta', st.nodes + out.nodes, decide (beta' ≤ alpha)⟩

/-- Board copy plus `apply_move` (`child = board.copy(); child.apply_move`). -/
def childBoard (b : Board) (mv : Move) (player : Int) : Board :=
  (applyMove b mv player).1

/-- `_minimax(board, to_move, root_player, depth, alpha, beta, config, stats)`.
The returned `nodes` is the subtree's contribution to `stats["nodes"]`. -/
def minimaxABO (order : List Pos) (cfg : AgentConfig) (root : Int) :
    Nat → Board → Int → EV → EV → MMOut
  | 0, b, _, _, _ =>
    ⟨toEV (evaluateBoardO order b root cfg.heuristic), none, 1⟩
  | depth + 1, b, toMove, alpha, beta =>
    if isTerminal b then
      ⟨toEV (evaluateBoardO order b root cfg.heuristic), none, 1⟩
    else
      let legal := generateLegalMovesO order b toMove
      if legal.isEmpty then
        ⟨toEV (evaluateBoardO order b root cfg.heuristic), none, 1⟩
      else
        let ordered := orderedMoves b toMove legal
        let opponent := oppOf toMove
        if toMove = root then
          let st := abMaxLoop cfg (fun mv => childBoard b mv toMove)
            (fun cb a => minimaxABO order cfg root depth cb opponent a beta)
            beta ordered ⟨⊥, none, alpha, 1, false⟩
          ⟨st.best, st.bestMove, st.nodes⟩
        else
          let st := abMinLoop cfg (fun mv => childBoard b mv toMove)
            (fun cb bt => minimaxABO order cfg root depth cb opponent alpha bt)
            alpha ordered ⟨⊤, none, beta, 1, false⟩
          ⟨st.best, st.bestMove, st.nodes⟩

/-- Canonical instantiation of `minimaxABO`. -/
def minimaxAB (cfg : AgentConfig) (root : Int) (depth : Nat) (b : Board)
    (toMove : Int) (alpha beta : EV) : MMOut :=
  minimaxABO validPositionsList cfg root depth b toMove alpha beta

/-- The unpruned minimax value at equal depth, over the same move ordering
and the same evaluation: a plain max/min fold over all children, with no
alpha-beta window. -/
def fullMinimaxO (order : List Pos) (cfg : AgentConfig) (root : Int) :
    Nat → Board → Int → EV
  | 0, b, _ => toEV (evaluateBoardO order b root cfg.heuristic)
  | depth + 1, b, toMove =>
    if isTerminal b then toEV (evaluateBoardO order b root cfg.heuristic)
    else
      let legal := generateLegalMovesO order b toMove
      if legal.isEmpty then toEV (evaluateBoardO order b root cfg.heuristic)
      else
        let ordered := orderedMoves b toMove legal
        let opponent := oppOf toMove
        if toMove = root then
          ordered.foldl
            (fun acc mv =>
              max acc (fullMinimaxO order cfg root depth
                (childBoard b mv toMove) opponent))
            ⊥
        else
          ordered.foldl
            (fun acc mv =>
              min acc (fullMinimaxO order cfg root depth
                (childBoard b mv toMove) opponent))
            ⊤

/-- Canonical instantiation of `fullMinimaxO`. -/
def fullMinimax (cfg : AgentConfig) (root : Int) (depth : Nat) (b : Board)
    (toMove : Int) : EV :=
  fullMinimaxO validPositionsList cfg root depth b toMove

/-- `SearchResult` from `players/minimax.py`.  The wall-clock
`elapsed_ms` field is not modelled (time is external to the embedding). -/
structure SearchResult where
  move : Option Move
  score : EV
  nodes : Nat
  depth : Nat
deriving DecidableEq

/-- `search_best_move(board, player, config)`. -/
def searchBestMoveO (order : List Pos) (b : Board) (player : Int)
    (cfg : AgentConfig) : SearchResult :=
  let out := minimaxABO order cfg player cfg.depth b player ⊥ ⊤
  ⟨out.move, out.value, out.nodes, cfg.depth⟩

/-- Canonical instantiation of `searchBestMoveO`. -/
def searchBestMove (b : Board) (player : Int) (cfg : AgentConfig) :
    SearchResult :=
  searchBestMoveO validPositionsList b player cfg

/-- `str_to_pos(s)`: row letter then a single decimal digit; Python raises
(`IndexError`/`ValueError`, caught by the payload builder) on anything
else, modelled by `none`. -/
def strToPos (s : String) : Option Pos :=
  match s.data with
  | c0 :: c1 :: _ =>
    let letters := ['a', 'b', 'c', 'd', 'e', 'f', 'g', 'h', 'i']
    match letters.indexOf? c0 with
    | some r =>
      if '0' ≤ c1 ∧ c1 ≤ '9' then
        some ((r : Int), ((c1.toNat - '0'.toNat : Nat) : Int))
      else none
    | none => none
  | _ => none

/-- A move payload as seen by `build_move_from_payload`: the `marbles` and
`direction` entries of the JSON-like mapping.  `none` in a field models a
missing entry or one of the wrong shape (not a list); a `none` payload
models a non-mapping value. -/
structure MovePayload where
  marbles : Option (List String)
  direction : Option (List Int)

/-- `build_move_from_payload(payload)` from `players/validator.py`. -/
def buildMoveFromPayload (payload : Option MovePayload) :
    Option Move × Option String :=
  match payload with
  | none => (none, some "Move payload must be an object.")
  | some pl =>
    match pl.marbles with
    | none => (none, some "\x27marbles\x27 must be a list of positions.")
    | some ms =>
      if ¬ (1 ≤ ms.length ∧ ms.length ≤ 3) then
        (none, some "Move must contain between 1 and 3 marbles.")
      else if ms.dedup.length ≠ ms.length then
        (none, some "Move contains duplicate marbles.")
      else
        match pl.direction with
        | none => (none, some "\x27direction\x27 must be a two-item list.")
        | some dir =>
          match dir with
          | [d0, d1] =>
            match (ms.map strToPos).allSome with
            | some marbles => (some ⟨marbles, (d0, d1)⟩, none)
            | none => (none, some "Malformed move payload.")
          | _ => (none, some "\x27direction\x27 must be a two-item list.")

/-- `validate_move(board, player, move)` from `players/validator.py`. -/
def validateMove (b : Board) (player : Int) (mv : Option Move) :
    Bool × Option String :=
  match mv with
  | none => (false, some "Move is missing.")
  | some mv =>
    if ¬ (1 ≤ mv.marbles.length ∧ mv.marbles.length ≤ 3) then
      (false, some "Move must contain between 1 and 3 marbles.")
    else if ¬ isLegalMove b mv player then (false, some "Illegal move.")
    else (true, none)

/-- `validate_payload_move(board, player, payload)`. -/
def validatePayloadMove (b : Board) (player : Int)
    (payload : Option MovePayload) : Option Move × Option String :=
  match buildMoveFromPayload payload with
  | (_, some err) => (none, some err)
  | (mv, none) =>
    match validateMove b player mv with
    | (false, err) => (none, err)
    | (true, _) => (mv, none)

/-- Board with the given black and white marbles and zero scores (used to
state concrete scenarios). -/
def boardOf (blacks whites : List Pos) : Board :=
  ⟨fun p => if p ∈ blacks then BLACK else if p ∈ whites then WHITE else EMPTY,
   fun _ => 0⟩

/-- The all-empty board. -/
def emptyBoard : Board := boardOf [] []

theorem stepN_zero (p : Pos) (d : Direction) : stepN p d 0 = p := rfl

theorem stepN_succ (p : Pos) (d : Direction) (n : Nat) :
    stepN p d (n + 1) = stepN (neighbor p d) d n := rfl

theorem stepN_coords (p : Pos) (d : Direction) :
    ∀ n : Nat, stepN p d n = (p.1 + (n : Int) * d.1, p.2 + (n : Int) * d.2)
  | 0 => by simp [stepN]
  | n + 1 => by
    rw [stepN_succ, stepN_coords (neighbor p d) d n, neighbor, Prod.mk.injEq]
    constructor <;> push_cast <;> ring

theorem stepN_add (p : Pos) (d : Direction) (m n : Nat) :
    stepN p d (m + n) = stepN (stepN p d m) d n := by
  rw [stepN_coords, stepN_coords, stepN_coords, Prod.mk.injEq]
  constructor <;> push_cast <;> ring

theorem stepN_one (p : Pos) (d : Direction) : stepN p d 1 = neighbor p d := rfl

theorem stepN_inj (d : Direction) (hd : d ∈ DIRECTIONS) (p : Pos) {i j : Nat}
    (h : stepN p d i = stepN p d j) : i = j := by
  rw [stepN_coords, stepN_coords, Prod.mk.injEq] at h
  obtain ⟨h1, h2⟩ := h
  simp only [DIRECTIONS, List.mem_cons, List.not_mem_nil, or_false] at hd
  rcases hd with h' | h' | h' | h' | h' | h' <;> subst h' <;> simp at h1 h2 <;> omega

theorem collectPushed_of_chain (cells : Pos → Int) (opp : Int) (d : Direction) :
    ∀ (k : Nat) (fuel : Nat) (a : Pos), k < fuel →
    (∀ i < k, isValid (stepN a d i) = true ∧ cells (stepN a d i) = opp) →
    ¬ (isValid (stepN a d k) = true ∧ cells (stepN a d k) = opp) →
    collectPushed cells opp d fuel a = (List.range k).map (stepN a d) ∧
      walkEnd cells opp d fuel a = stepN a d k
  | 0, fuel + 1, a, _, _, hstop => by
    rw [stepN_zero] at hstop
    rw [collectPushed, walkEnd, if_neg hstop, if_neg hstop]
    exact ⟨rfl, rfl⟩
  | k + 1, fuel + 1, a, hf, hchain, hstop => by
    have h0 : isValid a = true ∧ cells a = opp := by
      have := hchain 0 (Nat.succ_pos k)
      rwa [stepN_zero] at this
    have ih := collectPushed_of_chain cells opp d k fuel (neighbor a d)
      (by omega)
      (fun i hi => by
        have := hchain (i + 1) (by omega)
        rwa [stepN_succ] at this)
      (by rwa [stepN_succ] at hstop)
    rw [collectPushed, walkEnd, if_pos h0, if_pos h0, ih.1, ih.2]
    refine ⟨?_, rfl⟩
    rw [List.range_succ_eq_map, List.map_cons, List.map_map]
    rfl

theorem walk_stops (d : Direction) (hd : d ∈ DIRECTIONS) (a : Pos) :
    ∃ j, j ≤ 10 ∧ isValid (stepN a d j) = false := by
  by_cases ha : isValid a = true
  · refine ⟨10, le_refl 10, ?_⟩
    by_contra h
    have hv : isValid (stepN a d 10) = true := by
      cases hvv : isValid (stepN a d 10)
      · exact absurd hvv h
      · rfl
    have hb := isValid_bounds a ha
    have hb10 := isValid_bounds (stepN a d 10) hv
    rw [stepN_coords] at hb10
    simp only [DIRECTIONS, List.mem_cons, List.not_mem_nil, or_false] at hd
    rcases hd with h' | h' | h' | h' | h' | h' <;> subst h' <;>
      simp at hb10 <;> omega
  · refine ⟨0, by omega, ?_⟩
    rw [stepN_zero]
    cases hvv : isValid a
    · rfl
    · exact absurd hvv ha

theorem chain_exists (cells : Pos → Int) (opp : Int) (d : Direction)
    (hd : d ∈ DIRECTIONS) (a : Pos) :
    ∃ k, k ≤ 10 ∧
      (∀ i < k, isValid (stepN a d i) = true ∧ cells (stepN a d i) = opp) ∧
      ¬ (isValid (stepN a d k) = true ∧ cells (stepN a d k) = opp) := by
  obtain ⟨j, hj10, hj⟩ := walk_stops d hd a
  have hex : ∃ n, ¬ (isValid (stepN a d n) = true ∧ cells (stepN a d n) = opp) :=
    ⟨j, fun hc => by rw [hc.1] at hj; cases hj⟩
  refine ⟨Nat.find hex, ?_, ?_, Nat.find_spec hex⟩
  · exact le_trans (Nat.find_min' hex (fun hc => by rw [hc.1] at hj; cases hj)) hj10
  · intro i hi
    have := Nat.find_min hex hi
    by_contra hcon
    exact this fun hc => hcon hc

/-- The deduplication identity of a move: `(sorted marbles, direction)`. -/
def moveKey (mv : Move) : MoveKey := (sortPos mv.marbles, mv.direction)

theorem sortPos_idem (ms : List Pos) : sortPos (sortPos ms) = sortPos ms :=
  List.Sorted.insertionSort_eq (List.sorted_insertionSort posLe ms)

/-- Invariant of the `generate_legal_moves` accumulator: all collected moves
are legal, their keys are pairwise distinct, and every key is recorded. -/
def genInv (b : Board) (player : Int) (st : GenState) : Prop :=
  (∀ mv ∈ st.moves, isLegalMove b mv player = true) ∧
  st.moves.Pairwise (fun m₁ m₂ => moveKey m₁ ≠ moveKey m₂) ∧
  (∀ mv ∈ st.moves, moveKey mv ∈ st.seen)

theorem addCandidate_inv (b : Board) (player : Int) (st : GenState)
    (ms : List Pos) (d : Direction) (hinv : genInv b player st) :
    genInv b player (addCandidate b player st ms d) := by
  obtain ⟨hleg, hpair, hkeys⟩ := hinv
  unfold addCandidate
  by_cases hkey : ((sortPos ms, d) : MoveKey) ∈ st.seen
  · rw [if_pos hkey]
    exact ⟨hleg, hpair, hkeys⟩
  · rw [if_neg hkey]
    by_cases hl : isLegalMove b ⟨sortPos ms, d⟩ player = true
    · rw [if_pos hl]
      have hmk : moveKey ⟨sortPos ms, d⟩ = (sortPos ms, d) := by
        unfold moveKey
        rw [sortPos_idem]

      refine ⟨?_, ?_, ?_⟩
      · intro mv hmv
        rcases List.mem_append.mp hmv with h | h
        · exact hleg mv h
        · rw [List.mem_singleton] at h
          subst h
          exact hl
      · rw [List.pairwise_append]
        refine ⟨hpair, List.pairwise_singleton _ _, ?_⟩
        intro m₁ hm₁ m₂ hm₂
        rw [List.mem_singleton] at hm₂
        subst hm₂
        rw [hmk]
        intro hcon
        exact hkey (hcon ▸ hkeys m₁ hm₁)
      · intro mv hmv
        rcases List.mem_append.mp hmv with h | h
        · exact List.mem_cons_of_mem _ (hkeys mv h)
        · rw [List.mem_singleton] at h
          subst h
          rw [hmk]
          exact List.mem_cons_self _ _
    · rw [if_neg hl]
      refine ⟨hleg, hpair, fun mv hmv => List.mem_cons_of_mem _ (hkeys mv hmv)⟩

theorem genFold_inv (b : Board) (player : Int) :
    ∀ (cands : List (List Pos × Direction)) (st : GenState),
      genInv b player st →
      genInv b player
        (cands.foldl (fun st c => addCandidate b player st c.1 c.2) st)
  | [], st, h => h
  | c :: rest, st, h => by
    rw [List.foldl_cons]
    exact genFold_inv b player rest _ (addCandidate_inv b player st c.1 c.2 h)

/-- Claim C1: every move returned by `generate_legal_moves` passes
`is_legal_move` on the same board, and no two returned moves share the same
`(sorted marbles, direction)` key. -/
theorem generate_legal_moves_sound_and_nodup (b : Board) (player : Int) :
    (∀ mv ∈ generateLegalMoves b player, isLegalMove b mv player = true) ∧
    (generateLegalMoves b player).Pairwise
      (fun m₁ m₂ => moveKey m₁ ≠ moveKey m₂) := by
  have h := genFold_inv b player
    ((getMarblesO validPositionsList b player).flatMap fun m =>
      marbleCandidates (getMarblesO validPositionsList b player) m)
    ⟨[], []⟩
    ⟨fun mv hmv => absurd hmv (List.not_mem_nil mv),
     List.Pairwise.nil,
     fun mv hmv => absurd hmv (List.not_mem_nil mv)⟩
  exact ⟨h.1, h.2.1⟩

/-- Claim C7 counterexample: the valid-position hexagon has 61 distinct
cells, not 81 as the spec states. -/
theorem valid_positions_are_61_not_81 :
    validPositionsList.Nodup ∧ validPositionsList.length = 61 ∧
      ¬ validPositionsList.length = 81 := by
  refine ⟨by decide, by decide, by decide⟩

/-- Claim C7 (amended): the valid positions form the radius-4 hexagon with
61 cells; row `r` (0-based, letters a..i) spans columns `1..5+r` for
`r ≤ 4` (the half-open Python range `1..6+r`) and `r-3..9` for `r > 4`,
and `is_valid` returns true exactly on those positions. -/
theorem is_valid_hexagon_61 :
    (∀ p : Pos, isValid p = true ↔
      (0 ≤ p.1 ∧ p.1 ≤ 8 ∧
        (if p.1 ≤ 4 then 1 ≤ p.2 ∧ p.2 ≤ 5 + p.1
         else p.1 - 3 ≤ p.2 ∧ p.2 ≤ 9))) ∧
    validPositionsList.Nodup ∧ validPositionsList.length = 61 :=
  ⟨isValid_iff, by decide, by decide⟩

theorem bget_eq_some {b : Board} {p : Pos} {v : Int} :
    bget b p = some v ↔ (isValid p = true ∧ b.cells p = v) := by
  unfold bget
  by_cases h : isValid p = true
  · rw [if_pos h]
    simp [h]
  · rw [if_neg h]
    simp [h]

/-- Destructuring of a successful `is_legal_move` into its component checks. -/
theorem isLegalMove_parts {b : Board} {mv : Move} {player : Int}
    (h : isLegalMove b mv player = true) :
    (∀ m ∈ mv.marbles, bget b m = some player) ∧
    marblesInLine mv.marbles = true ∧
    (isInline mv = true → checkInline b mv player (oppOf player) = true) ∧
    (isInline mv = false → checkBroadside b mv = true) := by
  rw [isLegalMove] at h
  cases hall : mv.marbles.all fun m => decide (bget b m = some player) with
  | false => rw [hall] at h; simp at h
  | true =>
    rw [hall] at h
    simp only [if_true] at h
    cases hline : marblesInLine mv.marbles with
    | false => rw [hline] at h; simp at h
    | true =>
      rw [hline] at h
      simp only [if_true] at h
      rw [List.all_eq_true] at hall
      refine ⟨fun m hm => of_decide_eq_true (hall m hm), rfl, ?_, ?_⟩
      · intro hi
        rwa [hi, if_pos rfl] at h
      · intro hi
        rw [hi] at h
        simpa using h

theorem foldl_setCell_const (v : Int) :
    ∀ (L : List Pos) (f : Pos → Int) (q : Pos),
      (L.foldl (fun cs m => setCell cs m v) f) q = if q ∈ L then v else f q
  | [], f, q => by simp
  | m :: rest, f, q => by
    rw [List.foldl_cons, foldl_setCell_const v rest (setCell f m v) q]
    by_cases hq : q ∈ rest
    · rw [if_pos hq, if_pos (List.mem_cons_of_mem m hq)]
    · rw [if_neg hq]
      unfold setCell
      by_cases hm : q = m
      · subst hm
        rw [if_pos rfl, if_pos (List.mem_cons_self q rest)]
      · rw [if_neg hm, if_neg (by simp [List.mem_cons, hm, hq])]

/-- Pointwise characterisation of `_apply_broadside`. -/
theorem applyBroadside_cells (b : Board) (mv : Move) (player : Int) (q : Pos) :
    (applyBroadside b mv player).cells q =
      if q ∈ mv.marbles.map (fun m => neighbor m mv.direction) then player
      else if q ∈ mv.marbles then EMPTY
      else b.cells q := by
  show (mv.marbles.foldl
      (fun cs m => setCell cs (neighbor m mv.direction) player)
      (mv.marbles.foldl (fun cs m => setCell cs m EMPTY) b.cells)) q = _
  rw [← List.foldl_map (fun m => neighbor m mv.direction)
    (fun cs m => setCell cs m player) mv.marbles]
  rw [foldl_setCell_const, foldl_setCell_const]

/-- Claim C5: a legal broadside move only empties the moving marbles'
origins and fills their destinations with the mover's colour; every other
cell, both score counters, and the reported outcome are untouched. -/
theorem broadside_apply_frame (b : Board) (mv : Move) (player : Int)
    (hleg : isLegalMove b mv player = true) (hbs : isInline mv = false) :
    (∀ p ∈ mv.marbles.map (fun m => neighbor m mv.direction),
        ((applyMove b mv player).1).cells p = player) ∧
    (∀ p ∈ mv.marbles, ((applyMove b mv player).1).cells p = EMPTY) ∧
    (∀ p, p ∉ mv.marbles →
        p ∉ mv.marbles.map (fun m => neighbor m mv.direction) →
        ((applyMove b mv player).1).cells p = b.cells p) ∧
    (∀ c, ((applyMove b mv player).1).score c = b.score c) ∧
    (applyMove b mv player).2 = ⟨[], false⟩ := by
  obtain ⟨hown, hline, _, hbr⟩ := isLegalMove_parts hleg
  have hbroad := hbr hbs
  rw [checkBroadside, List.all_eq_true] at hbroad
  have hdest : ∀ m ∈ mv.marbles,
      isValid (neighbor m mv.direction) = true ∧
      b.cells (neighbor m mv.direction) = EMPTY := by
    intro m hm
    have := hbroad m hm
    simp only [Bool.and_eq_true, decide_eq_true_eq] at this
    exact this
  have happ : applyMove b mv player = (applyBroadside b mv player, ⟨[], false⟩) := by
    rw [applyMove, hbs]
    simp
  rw [happ]
  refine ⟨?_, ?_, ?_, fun c => rfl, rfl⟩
  · intro p hp
    rw [applyBroadside_cells, if_pos hp]
  · intro p hp
    rw [applyBroadside_cells]
    by_cases hpd : p ∈ mv.marbles.map (fun m => neighbor m mv.direction)
    · rw [if_pos hpd]
      obtain ⟨m, hm, hmp⟩ := List.mem_map.mp hpd
      have h1 := (bget_eq_some.mp (hown p hp)).2
      have h2 := (hdest m hm).2
      rw [hmp] at h2
      rw [← h1, h2]
    · rw [if_neg hpd, if_pos hp]
  · intro p hp hpd
    rw [applyBroadside_cells, if_neg hpd, if_neg hp]

/-- Concrete broadside scenario: black `a1,a2` moving NW into empty `b1,b2`. -/
def c5Board : Board := boardOf [(0, 1), (0, 2)] []

/-- The broadside move of the C5 scenario. -/
def c5Move : Move := ⟨[(0, 1), (0, 2)], (1, 0)⟩

theorem broadside_apply_frame_witness :
    isLegalMove c5Board c5Move BLACK = true ∧
    (applyMove c5Board c5Move BLACK).1.cells (1, 1) = BLACK ∧
    (applyMove c5Board c5Move BLACK).1.cells (0, 1) = EMPTY ∧
    (applyMove c5Board c5Move BLACK).1.cells (2, 3) = c5Board.cells (2, 3) ∧
    (applyMove c5Board c5Move BLACK).1.score WHITE = c5Board.score WHITE := by
  have h := broadside_apply_frame c5Board c5Move BLACK (by decide) (by decide)
  exact ⟨by decide, h.1 (1, 1) (by decide), h.2.1 (0, 1) (by decide),
    h.2.2.1 (2, 3) (by decide) (by decide), h.2.2.2.1 WHITE⟩

/-- Claim C6: with no legal moves at the root, the search returns a null
move and the static evaluation of the root board. -/
theorem search_no_moves_null (b : Board) (player : Int) (cfg : AgentConfig)
    (h : generateLegalMoves b player = []) :
    (searchBestMove b player cfg).move = none ∧
    (searchBestMove b player cfg).score =
      toEV (evaluateBoard b player cfg.heuristic) := by
  rw [generateLegalMoves] at h
  rw [searchBestMove, searchBestMoveO]
  cases hd : cfg.depth with
  | zero => exact ⟨rfl, rfl⟩
  | succ d =>
    rw [minimaxABO]
    by_cases ht : isTerminal b = true
    · rw [if_pos ht]
      exact ⟨rfl, rfl⟩
    · rw [if_neg ht, h]
      exact ⟨rfl, rfl⟩

theorem search_no_moves_null_witness :
    generateLegalMoves emptyBoard BLACK = [] ∧
    (searchBestMove emptyBoard BLACK defaultConfig).move = none ∧
    (searchBestMove emptyBoard BLACK defaultConfig).score =
      toEV (evaluateBoard emptyBoard BLACK defaultConfig.heuristic) := by
  have h := search_no_moves_null emptyBoard BLACK defaultConfig (by decide)
  exact ⟨by decide, h.1, h.2⟩

theorem chain_le_ten (d : Direction) (hd : d ∈ DIRECTIONS) (a : Pos) (k : Nat)
    (hchain : ∀ i < k, isValid (stepN a d i) = true) : k ≤ 10 := by
  obtain ⟨j, hj10, hj⟩ := walk_stops d hd a
  by_contra h
  have := hchain j (by omega)
  rw [this] at hj
  cases hj

theorem all_ownership {b : Board} {mv : Move} {player : Int}
    (hown : ∀ m ∈ mv.marbles, bget b m = some player) :
    (mv.marbles.all fun m => decide (bget b m = some player)) = true :=
  List.all_eq_true.mpr fun m hm => decide_eq_true (hown m hm)

/-- Claim C2: for an inline move of 1-3 owned, colinear, contiguous marbles
whose cell ahead of the leading marble starts a contiguous opponent chain of
length `k ≥ 1`, the move is legal iff the moved marbles strictly outnumber
the chain and the first cell beyond the chain is empty or off-board. -/
theorem inline_push_legal_iff (b : Board) (mv : Move) (player : Int) (k : Nat)
    (hp : player = BLACK ∨ player = WHITE)
    (hd : mv.direction ∈ DIRECTIONS)
    (hcount : 1 ≤ mv.marbles.length ∧ mv.marbles.length ≤ 3)
    (hown : ∀ m ∈ mv.marbles, bget b m = some player)
    (hline : marblesInLine mv.marbles = true)
    (hinl : isInline mv = true)
    (hk : 0 < k)
    (hchain : ∀ i < k,
      isValid (stepN (neighbor (leadingOf mv) mv.direction) mv.direction i) = true ∧
      b.cells (stepN (neighbor (leadingOf mv) mv.direction) mv.direction i) =
        oppOf player)
    (hstop : ¬ (isValid (stepN (neighbor (leadingOf mv) mv.direction)
        mv.direction k) = true ∧
      b.cells (stepN (neighbor (leadingOf mv) mv.direction) mv.direction k) =
        oppOf player)) :
    isLegalMove b mv player = true ↔
      (k < mv.marbles.length ∧
        (isValid (stepN (neighbor (leadingOf mv) mv.direction) mv.direction k)
            = true →
          b.cells (stepN (neighbor (leadingOf mv) mv.direction) mv.direction k)
            = EMPTY)) := by
  have hlegal_eq : isLegalMove b mv player =
      checkInline b mv player (oppOf player) := by
    rw [isLegalMove, all_ownership hown, hline, hinl]
    rfl
  have hk10 : k ≤ 10 :=
    chain_le_ten mv.direction hd (neighbor (leadingOf mv) mv.direction) k
      fun i hi => (hchain i hi).1
  obtain ⟨hcollect, hend⟩ := collectPushed_of_chain b.cells (oppOf player)
    mv.direction k WALK_FUEL (neighbor (leadingOf mv) mv.direction)
    (by unfold WALK_FUEL; omega) hchain hstop
  have h0 := hchain 0 hk
  rw [stepN_zero] at h0
  have hopp_ne_empty : oppOf player ≠ EMPTY := by
    rcases hp with h | h <;> subst h <;> decide
  have hopp_ne_player : oppOf player ≠ player := by
    rcases hp with h | h <;> subst h <;> decide
  rw [hlegal_eq, checkInline]
  simp only []
  rw [if_neg (not_not_intro h0.1), h0.2, if_neg hopp_ne_empty,
    if_neg hopp_ne_player, hcollect, hend, List.length_map, List.length_range]
  by_cases hcnt : mv.marbles.length ≤ k
  · rw [if_pos hcnt]
    constructor
    · intro h
      cases h
    · intro h
      omega
  · rw [if_neg hcnt]
    by_cases hblocked : isValid (stepN (neighbor (leadingOf mv) mv.direction)
        mv.direction k) = true ∧
        b.cells (stepN (neighbor (leadingOf mv) mv.direction) mv.direction k)
          ≠ EMPTY
    · rw [if_pos hblocked]
      constructor
      · intro h
        cases h
      · intro h
        exact absurd (h.2 hblocked.1) hblocked.2
    · rw [if_neg hblocked]
      push_neg at hblocked
      constructor
      · intro _
        exact ⟨by omega, hblocked⟩
      · intro _
        rfl

/-- Three black marbles `e1,e2,e3` facing three white marbles `e4,e5,e6`. -/
def c2Board : Board := boardOf [(4, 1), (4, 2), (4, 3)] [(4, 4), (4, 5), (4, 6)]

/-- The 3-versus-3 eastward push attempt of the C2 scenario. -/
def c2Move : Move := ⟨[(4, 1), (4, 2), (4, 3)], (0, 1)⟩

theorem inline_push_legal_iff_witness :
    isLegalMove c2Board c2Move BLACK = false := by
  have h := inline_push_legal_iff c2Board c2Move BLACK 3
    (Or.inl rfl) (by decide) (by decide)
    (by intro m hm; fin_cases hm <;> decide)
    (by decide) (by decide) (by decide)
    (by decide) (by decide)
  have hne : ¬ (isLegalMove c2Board c2Move BLACK = true) := by
    rw [h]
    decide
  cases hv : isLegalMove c2Board c2Move BLACK
  · rfl
  · exact absurd hv hne

/-- The arithmetic progression `t, t+d, ..., t+(n-1)d`. -/
def APList (t : Pos) (d : Direction) (n : Nat) : List Pos :=
  (List.range n).map (stepN t d)

theorem APList_length (t : Pos) (d : Direction) (n : Nat) :
    (APList t d n).length = n := by
  simp [APList]

theorem APList_cons (t : Pos) (d : Direction) (n : Nat) :
    APList t d (n + 1) = t :: APList (neighbor t d) d n := by
  unfold APList
  rw [List.range_succ_eq_map, List.map_cons, List.map_map]
  rfl

theorem APList_mem {t : Pos} {d : Direction} {n : Nat} {x : Pos} :
    x ∈ APList t d n ↔ ∃ j, j < n ∧ x = stepN t d j := by
  unfold APList
  rw [List.mem_map]
  constructor
  · rintro ⟨j, hj, hx⟩
    exact ⟨j, List.mem_range.mp hj, hx.symm⟩
  · rintro ⟨j, hj, hx⟩
    exact ⟨j, List.mem_range.mpr hj, hx.symm⟩

theorem dot_stepN (t : Pos) (d : Direction) (j : Nat) :
    dot (stepN t d j) d = dot t d + (j : Int) * (d.1 * d.1 + d.2 * d.2) := by
  rw [stepN_coords]
  unfold dot
  ring

theorem dot_self_pos {d : Direction} (hd : d ∈ DIRECTIONS) :
    0 < d.1 * d.1 + d.2 * d.2 := by
  simp only [DIRECTIONS, List.mem_cons, List.not_mem_nil, or_false] at hd
  rcases hd with h | h | h | h | h | h <;> subst h <;> decide

theorem APList_nodup {t : Pos} {d : Direction} {n : Nat}
    (hd : d ∈ DIRECTIONS) : (APList t d n).Nodup := by
  unfold APList
  refine List.Nodup.map_on ?_ (List.nodup_range n)
  intro i _ j _ hij
  exact stepN_inj d hd t hij

theorem APList_sorted_dot {t : Pos} {d : Direction} {n : Nat}
    (hd : d ∈ DIRECTIONS) :
    (APList t d n).Sorted (fun x y => dot x d < dot y d) := by
  unfold APList List.Sorted
  rw [List.pairwise_map]
  refine (List.pairwise_lt_range n).imp ?_
  intro i j hij
  rw [dot_stepN, dot_stepN]
  have hpos := dot_self_pos hd
  have hij' : (i : Int) < (j : Int) := by exact_mod_cast hij
  have := mul_lt_mul_of_pos_right hij' hpos
  omega

theorem APList_reverse (t : Pos) (d : Direction) (n : Nat) :
    (APList t d n).reverse = APList (stepN t d (n - 1)) (opposite_dir d) n := by
  apply List.ext_getElem
  · simp [APList]
  · intro i h1 h2
    have hn : 1 ≤ n := by
      rw [List.length_reverse, APList_length] at h1
      omega
    have hi : i < n := by
      rw [List.length_reverse, APList_length] at h1
      exact h1
    rw [List.getElem_reverse]
    simp only [APList, List.getElem_map, List.getElem_range, List.length_map,
      List.length_range]
    have hle : i ≤ n - 1 := by omega
    rw [stepN_coords, stepN_coords, stepN_coords, Prod.mk.injEq]
    unfold opposite_dir
    simp only []
    constructor <;>
    · push_cast [Nat.cast_sub hle, Nat.cast_sub hn]
      ring

theorem APList_headD {t : Pos} {d : Direction} {n : Nat} (hn : 1 ≤ n)
    (z : Pos) : (APList t d n).headD z = t := by
  cases n with
  | zero => omega
  | succ m =>
    rw [APList_cons]
    rfl

theorem APList_getLastD {t : Pos} {d : Direction} {n : Nat} (hn : 1 ≤ n)
    (z : Pos) : (APList t d n).getLastD z = stepN t d (n - 1) := by
  cases n with
  | zero => omega
  | succ m =>
    unfold APList
    rw [List.range_succ, List.map_append, List.map_cons, List.map_nil,
      List.getLastD_concat]
    simp

theorem eq_of_perm_of_sorted_on {α : Type} (r : α → α → Prop) :
    ∀ (l₁ l₂ : List α), l₁.Perm l₂ → l₁.Sorted r → l₂.Sorted r →
      (∀ x ∈ l₁, ∀ y ∈ l₁, r x y → r y x → x = y) → l₁ = l₂
  | [], l₂, hp, _, _, _ => hp.nil_eq
  | a :: t₁, [], hp, _, _, _ => by
    have := hp.length_eq
    simp at this
  | a :: t₁, b :: t₂, hp, hs₁, hs₂, hanti => by
    rw [List.sorted_cons] at hs₁ hs₂
    have hab : a = b := by
      by_cases h : a = b
      · exact h
      · have hb : b ∈ t₁ := by
          rcases List.mem_cons.mp (hp.symm.subset (List.mem_cons_self b t₂))
            with h' | h'
          · exact absurd h'.symm h
          · exact h'
        have ha : a ∈ t₂ := by
          rcases List.mem_cons.mp (hp.subset (List.mem_cons_self a t₁))
            with h' | h'
          · exact absurd h' h
          · exact h'
        exact hanti a (List.mem_cons_self a t₁) b (List.mem_cons_of_mem a hb)
          (hs₁.1 b hb) (hs₂.1 a ha)
    subst hab
    have hpt : t₁.Perm t₂ := hp.cons_inv
    have := eq_of_perm_of_sorted_on r t₁ t₂ hpt hs₁.2 hs₂.2
      (fun x hx y hy => hanti x (List.mem_cons_of_mem a hx) y
        (List.mem_cons_of_mem a hy))
    rw [this]

theorem insertionSort_eq_of_perm {r : Pos → Pos → Prop} [DecidableRel r]
    [IsTotal Pos r] [IsTrans Pos r] (ms target : List Pos)
    (hperm : ms.Perm target) (ht : target.Sorted r)
    (hanti : ∀ x ∈ ms, ∀ y ∈ ms, r x y → r y x → x = y) :
    List.insertionSort r ms = target := by
  have hs := List.sorted_insertionSort r ms
  have hp : (List.insertionSort r ms).Perm target :=
    (List.perm_insertionSort r ms).trans hperm
  refine eq_of_perm_of_sorted_on r _ _ hp hs ht ?_
  intro x hx y hy
  exact hanti x ((List.perm_insertionSort r ms).subset hx)
    y ((List.perm_insertionSort r ms).subset hy)

theorem apCheck_eq (s0 : Pos) (d : Direction) :
    ∀ (i : Nat) (l : List Pos), apCheck s0 d i l = true →
      l = (List.range l.length).map fun j => stepN s0 d (i + j)
  | _, [], _ => rfl
  | i, p :: rest, h => by
    rw [apCheck, Bool.and_eq_true, decide_eq_true_eq] at h
    obtain ⟨hp, hrest⟩ := h
    have ih := apCheck_eq s0 d (i + 1) rest hrest
    rw [List.length_cons, List.range_succ_eq_map, List.map_cons, List.map_map]
    congr 1
    · rw [hp, stepN_coords]
      simp
    · nth_rewrite 1 [ih]
      apply List.map_congr_left
      intro j _
      show stepN s0 d (i + 1 + j) = stepN s0 d (i + (j + 1))
      congr 1
      omega

theorem marblesInLine_char {ms : List Pos} (h : marblesInLine ms = true)
    (h2 : 2 ≤ ms.length) :
    ∃ a e, e ∈ DIRECTIONS ∧ sortPos ms = APList a e ms.length := by
  rw [marblesInLine, if_neg (by omega : ¬ ms.length ≤ 1)] at h
  have hlen : (sortPos ms).length = ms.length :=
    (List.perm_insertionSort posLe ms).length_eq
  rcases hsp : sortPos ms with _ | ⟨s0, _ | ⟨s1, rest⟩⟩
  · rw [hsp] at hlen
    simp at hlen
    omega
  · rw [hsp] at hlen
    simp at hlen
    omega
  · rw [hsp] at h hlen
    simp only at h
    rw [Bool.and_eq_true, decide_eq_true_eq] at h
    obtain ⟨hd, hap⟩ := h
    refine ⟨s0, (s1.1 - s0.1, s1.2 - s0.2), hd, ?_⟩
    rw [← hlen]
    have hrest := apCheck_eq s0 (s1.1 - s0.1, s1.2 - s0.2) 2 rest hap
    rw [List.length_cons, List.length_cons]
    rw [show rest.length + 1 + 1 = rest.length + 2 by omega]
    rw [APList_cons, APList_cons]
    congr 1
    congr 1
    · show s1 = neighbor s0 (s1.1 - s0.1, s1.2 - s0.2)
      unfold neighbor
      simp only []
      rw [Prod.mk.injEq]
      omega
    · unfold APList
      nth_rewrite 1 [hrest]
      apply List.map_congr_left
      intro j _
      rw [show (2 : Nat) + j = j + 2 by omega]
      rw [stepN_coords, stepN_coords]
      unfold neighbor
      simp only []
      rw [Prod.mk.injEq]
      push_cast
      constructor <;> ring

theorem sorts_of_perm_AP {ms : List Pos} {t : Pos} {d : Direction}
    (hd : d ∈ DIRECTIONS) (hperm : ms.Perm (APList t d ms.length)) :
    projSort d ms = APList t d ms.length ∧
    List.insertionSort (fun a b => dot b d ≤ dot a d) ms =
      (APList t d ms.length).reverse := by
  have hmemAP : ∀ x ∈ ms, ∃ j, j < ms.length ∧ x = stepN t d j := fun x hx =>
    APList_mem.mp (hperm.subset hx)
  have hdot_inj : ∀ x ∈ ms, ∀ y ∈ ms, dot x d = dot y d → x = y := by
    intro x hx y hy hxy
    obtain ⟨j, _, hj⟩ := hmemAP x hx
    obtain ⟨j', _, hj'⟩ := hmemAP y hy
    subst hj; subst hj'
    rw [dot_stepN, dot_stepN] at hxy
    have hpos := dot_self_pos hd
    have : (j : Int) = (j' : Int) := by
      have h2 : (j : Int) * (d.1 * d.1 + d.2 * d.2)
          = (j' : Int) * (d.1 * d.1 + d.2 * d.2) := by omega
      exact mul_right_cancel₀ (by omega) h2
    have : j = j' := by exact_mod_cast this
    rw [this]
  constructor
  · haveI : IsTotal Pos fun a b => dot a d ≤ dot b d :=
      ⟨fun a b => le_total _ _⟩
    haveI : IsTrans Pos fun a b => dot a d ≤ dot b d :=
      ⟨fun _ _ _ h1 h2 => le_trans h1 h2⟩
    refine insertionSort_eq_of_perm ms _ hperm ?_ ?_
    · exact (APList_sorted_dot hd).imp le_of_lt
    · intro x hx y hy h1 h2
      exact hdot_inj x hx y hy (le_antisymm h1 h2)
  · haveI : IsTotal Pos fun a b => dot b d ≤ dot a d :=
      ⟨fun a b => (le_total _ _).symm⟩
    haveI : IsTrans Pos fun a b => dot b d ≤ dot a d :=
      ⟨fun _ _ _ h1 h2 => le_trans h2 h1⟩
    refine insertionSort_eq_of_perm ms _
      (hperm.trans (List.reverse_perm _).symm) ?_ ?_
    · show ((APList t d ms.length).reverse).Sorted _
      rw [List.Sorted, List.pairwise_reverse]
      exact (APList_sorted_dot hd).imp fun h => le_of_lt h
    · intro x hx y hy h1 h2
      exact hdot_inj x hx y hy (le_antisymm h2 h1)

/-- Geometry of an inline move: its marbles are a contiguous progression
along the movement direction starting at the trailing marble, the
projection sorts used by `_leading_trailing` and `_apply_inline` are that
progression (ascending) and its reverse (descending), and the leading
marble is its far end. -/
theorem inline_shape {mv : Move} (hne : mv.marbles ≠ [])
    (hd : mv.direction ∈ DIRECTIONS)
    (hline : marblesInLine mv.marbles = true)
    (hinl : isInline mv = true) :
    ∃ t, mv.marbles.Perm (APList t mv.direction mv.marbles.length) ∧
      projSort mv.direction mv.marbles =
        APList t mv.direction mv.marbles.length ∧
      List.insertionSort
        (fun a b => dot b mv.direction ≤ dot a mv.direction) mv.marbles =
        (APList t mv.direction mv.marbles.length).reverse ∧
      trailingOf mv = t ∧
      leadingOf mv = stepN t mv.direction (mv.marbles.length - 1) := by
  have hn1 : 1 ≤ mv.marbles.length := List.length_pos.mpr hne
  have main : ∀ t, mv.marbles.Perm (APList t mv.direction mv.marbles.length) →
      projSort mv.direction mv.marbles =
        APList t mv.direction mv.marbles.length ∧
      List.insertionSort
        (fun a b => dot b mv.direction ≤ dot a mv.direction) mv.marbles =
        (APList t mv.direction mv.marbles.length).reverse ∧
      trailingOf mv = t ∧
      leadingOf mv = stepN t mv.direction (mv.marbles.length - 1) := by
    intro t hperm
    obtain ⟨hs1, hs2⟩ := sorts_of_perm_AP hd hperm
    refine ⟨hs1, hs2, ?_, ?_⟩
    · unfold trailingOf
      rw [hs1, APList_headD hn1]
    · unfold leadingOf
      rw [hs1, APList_getLastD hn1]
  by_cases hone : mv.marbles.length = 1
  · obtain ⟨m, hm⟩ := List.length_eq_one.mp hone
    have hperm : mv.marbles.Perm (APList m mv.direction mv.marbles.length) := by
      rw [hm]
      have : APList m mv.direction ([m] : List Pos).length = [m] := by
        show List.map (stepN m mv.direction) (List.range 1) = [m]
        rw [List.range_succ, List.range_zero]
        rfl
      rw [this]
    exact ⟨m, hperm, main m hperm⟩
  · have h2 : 2 ≤ mv.marbles.length := by omega
    obtain ⟨a, e, he, hsort⟩ := marblesInLine_char hline h2
    have hde : mv.direction = e ∨ mv.direction = opposite_dir e := by
      rw [isInline, if_neg hone] at hinl
      have hexp : sortPos mv.marbles =
          a :: neighbor a e ::
            APList (neighbor (neighbor a e) e) e (mv.marbles.length - 2) := by
        rw [hsort]
        obtain ⟨m, hm⟩ : ∃ m, mv.marbles.length = m + 2 :=
          ⟨mv.marbles.length - 2, by omega⟩
        rw [hm, APList_cons, APList_cons]
        have : m + 2 - 2 = m := by omega
        rw [this]
      rw [hexp] at hinl
      have hinl' : decide (mv.direction =
          ((neighbor a e).1 - a.1, (neighbor a e).2 - a.2) ∨
          mv.direction = opposite_dir
            ((neighbor a e).1 - a.1, (neighbor a e).2 - a.2)) = true := hinl
      have heq : ((neighbor a e).1 - a.1, (neighbor a e).2 - a.2) = e := by
        refine Prod.ext ?_ ?_ <;> simp [neighbor]
      rw [heq] at hinl'
      exact of_decide_eq_true hinl'
    have hpermS : mv.marbles.Perm (APList a e mv.marbles.length) := by
      rw [← hsort]
      exact (List.perm_insertionSort posLe mv.marbles).symm
    rcases hde with hcase | hcase
    · have hperm : mv.marbles.Perm
          (APList a mv.direction mv.marbles.length) := by
        rw [hcase]
        exact hpermS
      exact ⟨a, hperm, main a hperm⟩
    · have hperm : mv.marbles.Perm
          (APList (stepN a e (mv.marbles.length - 1)) mv.direction
            mv.marbles.length) := by
        rw [hcase, ← APList_reverse]
        exact hpermS.trans (List.reverse_perm _).symm
      exact ⟨stepN a e (mv.marbles.length - 1), hperm,
        main (stepN a e (mv.marbles.length - 1)) hperm⟩

theorem stepN_neighbor (s : Pos) (d : Direction) (k : Nat) :
    neighbor (stepN s d k) d = stepN s d (k + 1) := by
  rw [stepN_add s d k 1, stepN_one]

theorem APList_reverse_succ (s : Pos) (d : Direction) (k : Nat) :
    (APList s d (k + 1)).reverse = stepN s d k :: (APList s d k).reverse := by
  unfold APList
  rw [List.range_succ, List.map_append, List.reverse_append]
  rfl

theorem pushStep_self (opp : Int) (d : Direction) (cells : Pos → Int)
    (p : Pos) : pushStep opp d cells p p = EMPTY := by
  unfold pushStep setCell
  rw [if_pos rfl]

theorem pushStep_dest (opp : Int) (d : Direction) (cells : Pos → Int)
    (p : Pos) (hne : neighbor p d ≠ p)
    (hv : isValid (neighbor p d) = true) :
    pushStep opp d cells p (neighbor p d) = opp := by
  unfold pushStep setCell
  rw [if_neg hne, if_pos hv, if_pos rfl]

theorem pushStep_other (opp : Int) (d : Direction) (cells : Pos → Int)
    (p x : Pos) (h1 : x ≠ p) (h2 : x ≠ neighbor p d) :
    pushStep opp d cells p x = cells x := by
  unfold pushStep setCell
  rw [if_neg h1]
  by_cases hv : isValid (neighbor p d) = true
  · rw [if_pos hv, if_neg h2]
  · rw [if_neg hv]

theorem pushStep_other_invalid (opp : Int) (d : Direction)
    (cells : Pos → Int) (p x : Pos) (h1 : x ≠ p)
    (hv : isValid (neighbor p d) = false) :
    pushStep opp d cells p x = cells x := by
  unfold pushStep setCell
  rw [if_neg h1,
    if_neg (show ¬ isValid (neighbor p d) = true by
      rw [hv]; exact Bool.false_ne_true)]

theorem ownStep_self (player : Int) (d : Direction) (cells : Pos → Int)
    (m : Pos) : ownStep player d cells m m = EMPTY := by
  unfold ownStep setCell
  rw [if_pos rfl]

theorem ownStep_dest (player : Int) (d : Direction) (cells : Pos → Int)
    (m : Pos) (hne : neighbor m d ≠ m) :
    ownStep player d cells m (neighbor m d) = player := by
  unfold ownStep setCell
  rw [if_neg hne, if_pos rfl]

theorem ownStep_other (player : Int) (d : Direction) (cells : Pos → Int)
    (m x : Pos) (h1 : x ≠ m) (h2 : x ≠ neighbor m d) :
    ownStep player d cells m x = cells x := by
  unfold ownStep setCell
  rw [if_neg h1, if_neg h2]

/-- Effect of the pushed-marble loop of `_apply_inline` on the chain
`s, s+d, ..., s+(k-1)d` (processed farthest first): the chain start is
vacated, interior cells and the valid cell one past the chain hold the
opponent, and cells off the closed chain are untouched. -/
theorem pushFold_char (opp : Int) (d : Direction) (hd : d ∈ DIRECTIONS)
    (s : Pos) :
    ∀ (k : Nat) (cells : Pos → Int),
      (∀ j, 1 ≤ j → j < k → isValid (stepN s d j) = true) →
      (0 < k →
        ((APList s d k).reverse.foldl (pushStep opp d) cells) s = EMPTY) ∧
      (∀ j, 1 ≤ j → j < k →
        ((APList s d k).reverse.foldl (pushStep opp d) cells) (stepN s d j)
          = opp) ∧
      (0 < k → isValid (stepN s d k) = true →
        ((APList s d k).reverse.foldl (pushStep opp d) cells) (stepN s d k)
          = opp) ∧
      (∀ q, (∀ j, j ≤ k → q ≠ stepN s d j) →
        ((APList s d k).reverse.foldl (pushStep opp d) cells) q = cells q) ∧
      (0 < k → isValid (stepN s d k) = false →
        ((APList s d k).reverse.foldl (pushStep opp d) cells) (stepN s d k)
          = cells (stepN s d k))
  | 0, cells, _ => by
    refine ⟨by omega, fun j h1 h2 => by omega, by omega, fun q _ => ?_, by omega⟩
    simp [APList]
  | k + 1, cells, hvalid => by
    have hlist : (APList s d (k + 1)).reverse.foldl (pushStep opp d) cells =
        (APList s d k).reverse.foldl (pushStep opp d)
          (pushStep opp d cells (stepN s d k)) := by
      rw [APList_reverse_succ, List.foldl_cons]
    obtain ⟨ih1, ih2, ih3, ih4, ih5⟩ := pushFold_char opp d hd s k
      (pushStep opp d cells (stepN s d k))
      (fun j h1 h2 => hvalid j h1 (by omega))
    have hne1 : neighbor (stepN s d k) d ≠ stepN s d k := by
      rw [stepN_neighbor]
      intro hc
      have := stepN_inj d hd s hc
      omega
    refine ⟨?_, ?_, ?_, ?_, ?_⟩
    · intro _
      rw [hlist]
      cases k with
      | zero =>
        simp only [APList, List.range_zero, List.map_nil, List.reverse_nil,
          List.foldl_nil]
        have := pushStep_self opp d cells (stepN s d 0)
        rwa [stepN_zero] at this
      | succ m => exact ih1 (by omega)
    · intro j h1 h2
      rw [hlist]
      by_cases hjk : j < k
      · exact ih2 j h1 hjk
      · have hjeq : j = k := by omega
        subst hjeq
        exact ih3 (by omega) (hvalid j h1 (by omega))
    · intro _ hvk
      rw [hlist]
      have h4 := ih4 (stepN s d (k + 1)) (fun j hj hq => by
        have := stepN_inj d hd s hq
        omega)
      rw [h4, ← stepN_neighbor]
      exact pushStep_dest opp d cells (stepN s d k) hne1
        (by rwa [stepN_neighbor])
    · intro q hq
      rw [hlist]
      have h4 := ih4 q (fun j hj => hq j (by omega))
      rw [h4]
      exact pushStep_other opp d cells (stepN s d k) q
        (hq k (by omega)) (by rw [stepN_neighbor]; exact hq (k + 1) (by omega))
    · intro _ hv
      rw [hlist]
      have h4 := ih4 (stepN s d (k + 1)) (fun j hj hqk => by
        have := stepN_inj d hd s hqk
        omega)
      rw [h4]
      refine pushStep_other_invalid opp d cells (stepN s d k) _ ?_ ?_
      · intro hc
        have := stepN_inj d hd s hc
        omega
      · rwa [stepN_neighbor]

/-- Effect of the own-marble loop of `_apply_inline` on the line
`t, t+d, ..., t+(n-1)d` (processed leading first): the trailing cell is
vacated, each cell one step ahead of a moved marble holds the mover, and
cells off the closed line are untouched. -/
theorem ownFold_char (player : Int) (d : Direction) (hd : d ∈ DIRECTIONS)
    (t : Pos) :
    ∀ (n : Nat) (cells : Pos → Int),
      (0 < n →
        ((APList t d n).reverse.foldl (ownStep player d) cells) t = EMPTY) ∧
      (∀ j, 1 ≤ j → j ≤ n →
        ((APList t d n).reverse.foldl (ownStep player d) cells) (stepN t d j)
          = player) ∧
      (∀ q, (∀ j, j ≤ n → q ≠ stepN t d j) →
        ((APList t d n).reverse.foldl (ownStep player d) cells) q = cells q)
  | 0, cells => by
    refine ⟨by omega, fun j h1 h2 => by omega, fun q _ => ?_⟩
    simp [APList]
  | n + 1, cells => by
    have hlist : (APList t d (n + 1)).reverse.foldl (ownStep player d) cells =
        (APList t d n).reverse.foldl (ownStep player d)
          (ownStep player d cells (stepN t d n)) := by
      rw [APList_reverse_succ, List.foldl_cons]
    obtain ⟨ih1, ih2, ih3⟩ := ownFold_char player d hd t n
      (ownStep player d cells (stepN t d n))
    have hne1 : neighbor (stepN t d n) d ≠ stepN t d n := by
      rw [stepN_neighbor]
      intro hc
      have := stepN_inj d hd t hc
      omega
    refine ⟨?_, ?_, ?_⟩
    · intro _
      rw [hlist]
      cases n with
      | zero =>
        simp only [APList, List.range_zero, List.map_nil, List.reverse_nil,
          List.foldl_nil]
        have := ownStep_self player d cells (stepN t d 0)
        rwa [stepN_zero] at this
      | succ m => exact ih1 (by omega)
    · intro j h1 h2
      rw [hlist]
      by_cases hjn : j ≤ n
      · exact ih2 j h1 hjn
      · have hjeq : j = n + 1 := by omega
        subst hjeq
        have h3 := ih3 (stepN t d (n + 1)) (fun j hj hq => by
          have := stepN_inj d hd t hq
          omega)
        rw [h3, ← stepN_neighbor]
        exact ownStep_dest player d cells (stepN t d n) hne1
    · intro q hq
      rw [hlist]
      have h3 := ih3 q (fun j hj => hq j (by omega))
      rw [h3]
      exact ownStep_other player d cells (stepN t d n) q
        (hq n (by omega)) (by rw [stepN_neighbor]; exact hq (n + 1) (by omega))

theorem validPositionsList_nodup : validPositionsList.Nodup := by decide

theorem mem_validPositionsList {p : Pos} :
    p ∈ validPositionsList ↔ isValid p = true := by
  rw [isValid, decide_eq_true_eq]

theorem countP_setCell_mem :
    ∀ (l : List Pos), l.Nodup → ∀ (p : Pos), p ∈ l →
      ∀ (f : Pos → Int) (v c : Int),
      l.countP (fun q => decide (setCell f p v q = c)) +
        (if f p = c then 1 else 0) =
      l.countP (fun q => decide (f q = c)) + (if v = c then 1 else 0)
  | [], _, p, hp, _, _, _ => absurd hp (List.not_mem_nil p)
  | a :: t, hnd, p, hp, f, v, c => by
    rw [List.nodup_cons] at hnd
    rw [List.countP_cons, List.countP_cons]
    rcases List.mem_cons.mp hp with h | h
    · subst h
      have hpp : setCell f p v p = v := by
        unfold setCell
        rw [if_pos rfl]
      have hrest : t.countP (fun q => decide (setCell f p v q = c)) =
          t.countP (fun q => decide (f q = c)) := by
        refine List.countP_congr fun q hq => ?_
        have hqp : q ≠ p := fun hc => hnd.1 (hc ▸ hq)
        unfold setCell
        rw [if_neg hqp]
      rw [hpp, hrest]
      simp only [decide_eq_true_eq]
      by_cases h1 : v = c <;> by_cases h2 : f p = c <;>
        simp [h1, h2] <;> omega
    · have hap : p ≠ a := fun hc => hnd.1 (hc ▸ h)
      have ha : setCell f p v a = f a := by
        unfold setCell
        rw [if_neg (fun hc => hap hc.symm)]
      have ih := countP_setCell_mem t hnd.2 p h f v c
      rw [ha]
      omega

/-- Integer form of the count change caused by one cell write. -/
theorem count_update_int {p : Pos} (hp : p ∈ validPositionsList)
    (f : Pos → Int) (v c : Int) :
    (validPositionsList.countP (fun q => decide (setCell f p v q = c)) : Int) =
      (validPositionsList.countP (fun q => decide (f q = c)) : Int) +
      (if v = c then 1 else 0) - (if f p = c then 1 else 0) := by
  have h := countP_setCell_mem validPositionsList validPositionsList_nodup
    p hp f v c
  by_cases h1 : v = c <;> by_cases h2 : f p = c <;>
    simp only [h1, h2, if_pos, if_neg, if_true, if_false] at h ⊢ <;>
    push_cast <;> omega

/-- Count of a fold writing the constant `w` at a duplicate-free list of
valid positions. -/
theorem countP_fold_set_to (w : Int) :
    ∀ (S : List Pos) (f : Pos → Int) (c : Int), S.Nodup →
      (∀ m ∈ S, m ∈ validPositionsList) →
      (validPositionsList.countP
        (fun q => decide ((S.foldl (fun cs m => setCell cs m w) f) q = c)) : Int)
      = (validPositionsList.countP (fun q => decide (f q = c)) : Int)
        + (if w = c then (S.length : Int) else 0)
        - (S.countP (fun m => decide (f m = c)) : Int)
  | [], f, c, _, _ => by
    simp
  | m :: rest, f, c, hnd, hmem => by
    rw [List.nodup_cons] at hnd
    rw [List.foldl_cons]
    have ih := countP_fold_set_to w rest (setCell f m w) c hnd.2
      (fun x hx => hmem x (List.mem_cons_of_mem m hx))
    rw [ih]
    have h1 := count_update_int (hmem m (List.mem_cons_self m rest)) f w c
    rw [h1]
    have h2 : rest.countP (fun x => decide (setCell f m w x = c)) =
        rest.countP (fun x => decide (f x = c)) := by
      refine List.countP_congr fun x hx => ?_
      have hxm : x ≠ m := fun hc => hnd.1 (hc ▸ hx)
      unfold setCell
      rw [if_neg hxm]
    rw [h2, List.countP_cons, List.length_cons]
    simp only [decide_eq_true_eq]
    by_cases hw : w = c <;> by_cases hf : f m = c <;>
      simp [hw, hf] <;> push_cast <;> omega

/-- Count of a duplicate-free list on which `f` is constantly `v`. -/
theorem countP_const_val {S : List Pos} {f : Pos → Int} {v : Int}
    (hval : ∀ m ∈ S, f m = v) (c : Int) :
    S.countP (fun m => decide (f m = c)) =
      if v = c then S.length else 0 := by
  by_cases hv : v = c
  · rw [if_pos hv]
    refine List.countP_eq_length.mpr fun m hm => ?_
    rw [decide_eq_true_eq, hval m hm, hv]
  · rw [if_neg hv]
    refine List.countP_eq_zero.mpr fun m hm => ?_
    rw [decide_eq_true_eq, hval m hm]
    exact hv

theorem neighbor_inj (d : Direction) : Function.Injective fun m => neighbor m d := by
  intro x y h
  unfold neighbor at h
  rw [Prod.mk.injEq] at h
  refine Prod.ext ?_ ?_ <;> omega

/-- Conservation for the broadside branch of `apply_move`: every colour
count is unchanged, and so are the scores and the reported outcome. -/
theorem conservation_broadside (b : Board) (mv : Move) (player : Int)
    (hp : player = BLACK ∨ player = WHITE)
    (hne : mv.marbles ≠ [])
    (hleg : isLegalMove b mv player = true)
    (hinl : isInline mv = false) :
    (∀ c, marbleCount (applyMove b mv player).1 c = marbleCount b c) ∧
    (applyMove b mv player).1.score = b.score ∧
    (applyMove b mv player).2 = ⟨[], false⟩ := by
  obtain ⟨hown, hline, _, hbrB⟩ := isLegalMove_parts hleg
  have hbroad := hbrB hinl
  rw [checkBroadside, List.all_eq_true] at hbroad
  have hdest : ∀ m ∈ mv.marbles,
      isValid (neighbor m mv.direction) = true ∧
      b.cells (neighbor m mv.direction) = EMPTY := by
    intro m hm
    have := hbroad m hm
    simp only [Bool.and_eq_true, decide_eq_true_eq] at this
    exact this
  have hownv : ∀ m ∈ mv.marbles, isValid m = true ∧ b.cells m = player :=
    fun m hm => bget_eq_some.mp (hown m hm)
  have hn2 : 2 ≤ mv.marbles.length := by
    have h1 : 1 ≤ mv.marbles.length := List.length_pos.mpr hne
    by_cases hone : mv.marbles.length = 1
    · rw [isInline, if_pos hone] at hinl
      cases hinl
    · omega
  obtain ⟨a, e, he, hsort⟩ := marblesInLine_char hline hn2
  have hnodup : mv.marbles.Nodup := by
    have h1 : (sortPos mv.marbles).Nodup := hsort ▸ APList_nodup he
    exact ((List.perm_insertionSort posLe mv.marbles).nodup_iff).mp h1
  have hplayer0 : player ≠ EMPTY := by
    rcases hp with h | h <;> subst h <;> decide
  have hdisj : ∀ m ∈ mv.marbles, (neighbor m mv.direction) ∉ mv.marbles := by
    intro m hm hcon
    have h1 := (hownv _ hcon).2
    have h2 := (hdest m hm).2
    rw [h1] at h2
    exact hplayer0 h2
  have happ : applyMove b mv player = (applyBroadside b mv player, ⟨[], false⟩) := by
    rw [applyMove, hinl]
    simp
  rw [happ]
  refine ⟨?_, rfl, rfl⟩
  intro c
  show marbleCount (applyBroadside b mv player) c = marbleCount b c
  have hcount : ∀ c, (marbleCount (applyBroadside b mv player) c : Int) =
      (marbleCount b c : Int) := by
    intro c
    show ((validPositionsList.countP fun q =>
      decide ((applyBroadside b mv player).cells q = c)) : Int) = _
    have hcells : (applyBroadside b mv player).cells =
        mv.marbles.foldl
          (fun cs m => setCell cs (neighbor m mv.direction) player)
          (mv.marbles.foldl (fun cs m => setCell cs m EMPTY) b.cells) := rfl
    rw [hcells, ← List.foldl_map (fun m => neighbor m mv.direction)
      (fun cs m => setCell cs m player) mv.marbles]
    have hdnodup : (mv.marbles.map fun m => neighbor m mv.direction).Nodup :=
      hnodup.map (neighbor_inj mv.direction)
    have hfill := countP_fold_set_to player
      (mv.marbles.map fun m => neighbor m mv.direction)
      (mv.marbles.foldl (fun cs m => setCell cs m EMPTY) b.cells) c
      hdnodup
      (by
        intro x hx
        obtain ⟨m, hm, hmx⟩ := List.mem_map.mp hx
        rw [mem_validPositionsList, ← hmx]
        exact (hdest m hm).1)
    rw [hfill]
    have hclear := countP_fold_set_to EMPTY mv.marbles b.cells c hnodup
      (by
        intro x hx
        rw [mem_validPositionsList]
        exact (hownv x hx).1)
    rw [hclear]
    have hmarbval : mv.marbles.countP (fun m => decide (b.cells m = c)) =
        if player = c then mv.marbles.length else 0 :=
      countP_const_val (fun m hm => (hownv m hm).2) c
    have hdestval : (mv.marbles.map fun m => neighbor m mv.direction).countP
        (fun x => decide
          ((mv.marbles.foldl (fun cs m => setCell cs m EMPTY) b.cells) x = c)) =
        if EMPTY = c then
          (mv.marbles.map fun m => neighbor m mv.direction).length else 0 := by
      refine countP_const_val ?_ c
      intro x hx
      obtain ⟨m, hm, hmx⟩ := List.mem_map.mp hx
      rw [foldl_setCell_const]
      rw [if_neg (hmx ▸ hdisj m hm), ← hmx]
      exact (hdest m hm).2
    rw [hmarbval, hdestval, List.length_map]
    have hmb : (marbleCount b c : Int) =
        (validPositionsList.countP (fun q => decide (b.cells q = c)) : Int) := rfl
    rw [hmb]
    by_cases h1 : player = c <;> by_cases h2 : EMPTY = c <;>
      simp [h1, h2] <;> omega
  have := hcount c
  omega

/-- Conservation for the inline branch of `apply_move`. -/
theorem conservation_inline (b : Board) (mv : Move) (player : Int)
    (hp : player = BLACK ∨ player = WHITE)
    (hd : mv.direction ∈ DIRECTIONS)
    (hne : mv.marbles ≠ [])
    (hleg : isLegalMove b mv player = true)
    (hinl : isInline mv = true) :
    (∀ c, c = BLACK ∨ c = WHITE →
      (marbleCount (applyMove b mv player).1 c : Int) +
        (applyMove b mv player).1.score (oppOf c) =
      (marbleCount b c : Int) + b.score (oppOf c)) ∧
    (applyMove b mv player).1.score player =
      b.score player +
        (if (applyMove b mv player).2.pushoff = true then 1 else 0) ∧
    (applyMove b mv player).1.score (oppOf player) = b.score (oppOf player) := by
  obtain ⟨hown, hline, hinlB, _⟩ := isLegalMove_parts hleg
  obtain ⟨t, hperm, hs1, hs2, htr, hld⟩ := inline_shape hne hd hline hinl
  have hn1 : 1 ≤ mv.marbles.length := List.length_pos.mpr hne
  have hahead : neighbor (leadingOf mv) mv.direction =
      stepN t mv.direction mv.marbles.length := by
    rw [hld, stepN_neighbor]
    congr 1
    omega
  have howncell : ∀ j, j < mv.marbles.length →
      isValid (stepN t mv.direction j) = true ∧
      b.cells (stepN t mv.direction j) = player := by
    intro j hj
    have hmem : stepN t mv.direction j ∈ mv.marbles :=
      hperm.symm.subset (APList_mem.mpr ⟨j, hj, rfl⟩)
    exact bget_eq_some.mp (hown _ hmem)
  have hinj' : ∀ {i j : Nat},
      stepN t mv.direction i = stepN t mv.direction j → i = j :=
    fun h => stepN_inj mv.direction hd t h
  have hopp_ne_empty : oppOf player ≠ EMPTY := by
    rcases hp with h | h <;> subst h <;> decide
  have hopp_ne_player : oppOf player ≠ player := by
    rcases hp with h | h <;> subst h <;> decide
  have hplayer_ne_empty : player ≠ EMPTY := by
    rcases hp with h | h <;> subst h <;> decide
  obtain ⟨k, hk10, hchain, hstop⟩ := chain_exists b.cells (oppOf player)
    mv.direction hd (stepN t mv.direction mv.marbles.length)
  have hchainG : ∀ i, i < k →
      isValid (stepN t mv.direction (mv.marbles.length + i)) = true ∧
      b.cells (stepN t mv.direction (mv.marbles.length + i)) = oppOf player := by
    intro i hi
    have := hchain i hi
    rwa [← stepN_add] at this
  obtain ⟨hcol, hend⟩ := collectPushed_of_chain b.cells (oppOf player)
    mv.direction k WALK_FUEL (stepN t mv.direction mv.marbles.length)
    (by unfold WALK_FUEL; omega) hchain hstop
  have hchk := hinlB hinl
  simp only [checkInline] at hchk
  rw [hahead, hcol, hend, ← stepN_add, List.length_map, List.length_range]
    at hchk
  have hvahead : isValid (stepN t mv.direction mv.marbles.length) = true := by
    by_contra hv
    rw [if_pos hv] at hchk
    exact absurd hchk (by decide)
  rw [if_neg (not_not_intro hvahead)] at hchk
  -- the final cells of the applied move
  have hcellsF : (applyMove b mv player).1.cells =
      (APList t mv.direction mv.marbles.length).reverse.foldl
        (ownStep player mv.direction)
        ((APList (stepN t mv.direction mv.marbles.length) mv.direction
          k).reverse.foldl (pushStep (oppOf player) mv.direction) b.cells) := by
    rw [applyMove, if_pos hinl]
    show ((List.insertionSort
        (fun a b => dot b mv.direction ≤ dot a mv.direction)
        mv.marbles).foldl (ownStep player mv.direction)
        ((collectPushed b.cells (oppOf player) mv.direction WALK_FUEL
          (neighbor (leadingOf mv) mv.direction)).reverse.foldl
          (pushStep (oppOf player) mv.direction) b.cells)) = _
    rw [hahead, hcol, hs2]
    rfl
  have hscoreF : (applyMove b mv player).1.score =
      if ((List.range k).map
            (stepN (stepN t mv.direction mv.marbles.length) mv.direction)
          ≠ [] ∧
          ¬ isValid (stepN t mv.direction (mv.marbles.length + k)) = true)
      then setScore b.score player (b.score player + 1) else b.score := by
    rw [applyMove, if_pos hinl]
    show (if (collectPushed b.cells (oppOf player) mv.direction WALK_FUEL
          (neighbor (leadingOf mv) mv.direction) ≠ [] ∧
          ¬ isValid (walkEnd b.cells (oppOf player) mv.direction WALK_FUEL
            (neighbor (leadingOf mv) mv.direction)) = true)
        then setScore b.score player (b.score player + 1) else b.score) = _
    rw [hahead, hcol, hend, ← stepN_add]
  have houtF : (applyMove b mv player).2.pushoff =
      decide ((List.range k).map
            (stepN (stepN t mv.direction mv.marbles.length) mv.direction)
          ≠ [] ∧
          ¬ isValid (stepN t mv.direction (mv.marbles.length + k)) = true) := by
    rw [applyMove, if_pos hinl]
    show decide (collectPushed b.cells (oppOf player) mv.direction WALK_FUEL
          (neighbor (leadingOf mv) mv.direction) ≠ [] ∧
          ¬ isValid (walkEnd b.cells (oppOf player) mv.direction WALK_FUEL
            (neighbor (leadingOf mv) mv.direction)) = true) = _
    rw [hahead, hcol, hend, ← stepN_add]
  have hlist_ne : ((List.range k).map
      (stepN (stepN t mv.direction mv.marbles.length) mv.direction) ≠ [])
      ↔ 0 < k := by
    rw [← List.length_pos_iff_ne_nil, List.length_map, List.length_range]
  -- the fold characterisations
  obtain ⟨p1, p2, p3, p4, p5⟩ := pushFold_char (oppOf player) mv.direction hd
    (stepN t mv.direction mv.marbles.length) k b.cells
    (fun j h1 h2 => by
      have := (hchainG j h2).1
      rwa [stepN_add] at this)
  obtain ⟨o1, o2, o3⟩ := ownFold_char player mv.direction hd t
    mv.marbles.length
    ((APList (stepN t mv.direction mv.marbles.length) mv.direction
      k).reverse.foldl (pushStep (oppOf player) mv.direction) b.cells)
  -- value of the original board on the line
  have hbt : b.cells t = player := by
    have := (howncell 0 (by omega)).2
    rwa [stepN_zero] at this
  have htvalid : t ∈ validPositionsList := by
    rw [mem_validPositionsList]
    have := (howncell 0 (by omega)).1
    rwa [stepN_zero] at this
  have hnvalid : stepN t mv.direction mv.marbles.length ∈ validPositionsList :=
    mem_validPositionsList.mpr hvahead
  have htn : t ≠ stepN t mv.direction mv.marbles.length := by
    intro hc
    have : stepN t mv.direction 0 = stepN t mv.direction mv.marbles.length := by
      rwa [stepN_zero]
    have := hinj' this
    omega
  -- counting through the two base updates
  have hbase_count : ∀ c,
      (validPositionsList.countP (fun q => decide
        (setCell (setCell b.cells t EMPTY)
          (stepN t mv.direction mv.marbles.length) player q = c)) : Int) =
      (validPositionsList.countP (fun q => decide (b.cells q = c)) : Int) +
        (if player = c then 1 else 0) -
        (if b.cells (stepN t mv.direction mv.marbles.length) = c
          then 1 else 0) +
        (if EMPTY = c then 1 else 0) - (if player = c then 1 else 0) := by
    intro c
    rw [count_update_int hnvalid]
    rw [count_update_int htvalid]
    have : setCell b.cells t EMPTY
        (stepN t mv.direction mv.marbles.length) =
        b.cells (stepN t mv.direction mv.marbles.length) := by
      unfold setCell
      rw [if_neg (fun hc => htn hc.symm)]
    rw [this, hbt]
    omega
  have hmc : ∀ (b' : Board) (c : Int), (marbleCount b' c : Int) =
      (validPositionsList.countP (fun q => decide (b'.cells q = c)) : Int) :=
    fun _ _ => rfl
  by_cases hk0 : k = 0
  · -- no push: the cell ahead is empty and only the mover's line shifts
    subst hk0
    rw [Nat.add_zero] at hchk hscoreF houtF
    have hAempty :
        b.cells (stepN t mv.direction mv.marbles.length) = EMPTY := by
      by_cases hA : b.cells (stepN t mv.direction mv.marbles.length) = EMPTY
      · exact hA
      · exfalso
        rw [if_neg hA] at hchk
        by_cases hAp :
            b.cells (stepN t mv.direction mv.marbles.length) = player
        · rw [if_pos hAp] at hchk
          exact absurd hchk (by decide)
        · rw [if_neg hAp, if_neg (by omega : ¬ mv.marbles.length ≤ 0),
            if_pos ⟨hvahead, hA⟩] at hchk
          exact absurd hchk (by decide)
    have hpushnil :
        ((APList (stepN t mv.direction mv.marbles.length) mv.direction
          0).reverse.foldl (pushStep (oppOf player) mv.direction) b.cells)
        = b.cells := by
      simp [APList]
    have hfxA : ∀ q,
        ((APList t mv.direction mv.marbles.length).reverse.foldl
          (ownStep player mv.direction)
          ((APList (stepN t mv.direction mv.marbles.length) mv.direction
            0).reverse.foldl (pushStep (oppOf player) mv.direction) b.cells)) q
        = setCell (setCell b.cells t EMPTY)
            (stepN t mv.direction mv.marbles.length) player q := by
      intro q
      by_cases hqt : q = t
      · subst hqt
        rw [o1 (by omega)]
        unfold setCell
        rw [if_neg htn, if_pos rfl]
      · by_cases hqj : ∃ j, 1 ≤ j ∧ j ≤ mv.marbles.length ∧
            q = stepN t mv.direction j
        · obtain ⟨j, hj1, hjn, hjq⟩ := hqj
          subst hjq
          rw [o2 j hj1 hjn]
          unfold setCell
          by_cases hjn' : j = mv.marbles.length
          · subst hjn'
            rw [if_pos rfl]
          · rw [if_neg (fun hc => hjn' (hinj' hc)),
              if_neg (fun hc => hj1.not_lt (by
                have : j = 0 := hinj' (by rwa [stepN_zero])
                omega)),
              (howncell j (by omega)).2]
        · rw [o3 q (by
            intro j hjn hq
            rcases Nat.eq_zero_or_pos j with hj0 | hj0
            · subst hj0
              rw [stepN_zero] at hq
              exact hqt hq
            · exact hqj ⟨j, hj0, hjn, hq⟩), hpushnil]
          unfold setCell
          rw [if_neg (fun hc => hqj ⟨mv.marbles.length, hn1, le_refl _, hc⟩),
            if_neg hqt]
    have hscore0 : (applyMove b mv player).1.score = b.score := by
      rw [hscoreF, if_neg (by rintro ⟨h1, _⟩; exact h1 (by simp))]
    have hout0 : (applyMove b mv player).2.pushoff = false := by
      rw [houtF]
      simp
    have hcountA : ∀ c, (marbleCount (applyMove b mv player).1 c : Int) =
        (marbleCount b c : Int) := by
      intro c
      rw [hmc, hmc]
      have hcong : validPositionsList.countP
          (fun q => decide ((applyMove b mv player).1.cells q = c)) =
          validPositionsList.countP (fun q => decide
            (setCell (setCell b.cells t EMPTY)
              (stepN t mv.direction mv.marbles.length) player q = c)) := by
        refine List.countP_congr fun q _ => ?_
        rw [hcellsF, hfxA q]
      rw [hcong, hbase_count c, hAempty]
      omega
    refine ⟨?_, ?_, ?_⟩
    · intro c _
      rw [hcountA c, hscore0]
    · rw [hscore0, hout0]
      simp
    · rw [hscore0]
  · -- k ≥ 1 : a genuine push
    have hk1 : 1 ≤ k := by omega
    have hAopp : b.cells (stepN t mv.direction mv.marbles.length) =
        oppOf player := by
      have := (hchainG 0 (by omega)).2
      rwa [Nat.add_zero] at this
    rw [if_neg (by rw [hAopp]; exact hopp_ne_empty)] at hchk
    rw [if_neg (by rw [hAopp]; exact hopp_ne_player)] at hchk
    have hkn : ¬ (mv.marbles.length ≤ k) := by
      intro h
      rw [if_pos h] at hchk
      exact absurd hchk (by decide)
    rw [if_neg hkn] at hchk
    have hendok :
        isValid (stepN t mv.direction (mv.marbles.length + k)) = true →
        b.cells (stepN t mv.direction (mv.marbles.length + k)) = EMPTY := by
      intro hv
      by_cases hE :
          b.cells (stepN t mv.direction (mv.marbles.length + k)) = EMPTY
      · exact hE
      · rw [if_pos ⟨hv, hE⟩] at hchk
        exact absurd hchk (by decide)
    have htne_end : t ≠ stepN t mv.direction (mv.marbles.length + k) := by
      intro hc
      have : (0 : Nat) = mv.marbles.length + k := hinj' (by rwa [stepN_zero])
      omega
    have hn_ne_end : stepN t mv.direction mv.marbles.length ≠
        stepN t mv.direction (mv.marbles.length + k) := by
      intro hc
      have := hinj' hc
      omega
    -- shared pieces of the pointwise characterisation
    have hvalchain : ∀ i, 1 ≤ i → i < k →
        ((APList (stepN t mv.direction mv.marbles.length) mv.direction
          k).reverse.foldl (pushStep (oppOf player) mv.direction) b.cells)
          (stepN t mv.direction (mv.marbles.length + i)) = oppOf player := by
      intro i hi1 hik
      rw [stepN_add]
      exact p2 i hi1 hik
    by_cases hvend : isValid (stepN t mv.direction (mv.marbles.length + k))
        = true
    · -- push without capture
      have hEend := hendok hvend
      have hendmem : stepN t mv.direction (mv.marbles.length + k) ∈
          validPositionsList := mem_validPositionsList.mpr hvend
      have hfxB : ∀ q,
          ((APList t mv.direction mv.marbles.length).reverse.foldl
            (ownStep player mv.direction)
            ((APList (stepN t mv.direction mv.marbles.length) mv.direction
              k).reverse.foldl (pushStep (oppOf player) mv.direction)
              b.cells)) q
          = setCell (setCell (setCell b.cells t EMPTY)
              (stepN t mv.direction mv.marbles.length) player)
              (stepN t mv.direction (mv.marbles.length + k)) (oppOf player)
              q := by
        intro q
        by_cases hqt : q = t
        · subst hqt
          rw [o1 (by omega)]
          unfold setCell
          rw [if_neg htne_end, if_neg htn, if_pos rfl]
        · by_cases hqj : ∃ j, 1 ≤ j ∧ j ≤ mv.marbles.length ∧
              q = stepN t mv.direction j
          · obtain ⟨j, hj1, hjn, hjq⟩ := hqj
            subst hjq
            rw [o2 j hj1 hjn]
            unfold setCell
            rw [if_neg (fun hc => by have := hinj' hc; omega)]
            by_cases hjn' : j = mv.marbles.length
            · subst hjn'
              rw [if_pos rfl]
            · rw [if_neg (fun hc => hjn' (hinj' hc)),
                if_neg (fun hc => by
                  have : j = 0 := hinj' (by rwa [stepN_zero])
                  omega),
                (howncell j (by omega)).2]
          · have hqnotown : ∀ j, j ≤ mv.marbles.length →
                q ≠ stepN t mv.direction j := by
              intro j hjn hq
              rcases Nat.eq_zero_or_pos j with hj0 | hj0
              · subst hj0
                rw [stepN_zero] at hq
                exact hqt hq
              · exact hqj ⟨j, hj0, hjn, hq⟩
            rw [o3 q hqnotown]
            by_cases hqi : ∃ i, 1 ≤ i ∧ i < k ∧
                q = stepN t mv.direction (mv.marbles.length + i)
            · obtain ⟨i, hi1, hik, hiq⟩ := hqi
              subst hiq
              rw [hvalchain i hi1 hik]
              unfold setCell
              rw [if_neg (fun hc => by have := hinj' hc; omega),
                if_neg (fun hc => by have := hinj' hc; omega),
                if_neg (fun hc => by
                  have : mv.marbles.length + i = 0 :=
                    hinj' (by rwa [stepN_zero])
                  omega)]
              exact ((hchainG i hik).2).symm
            · by_cases hqe : q = stepN t mv.direction (mv.marbles.length + k)
              · subst hqe
                have hp3 : ((APList (stepN t mv.direction mv.marbles.length)
                    mv.direction k).reverse.foldl
                    (pushStep (oppOf player) mv.direction) b.cells)
                    (stepN t mv.direction (mv.marbles.length + k))
                    = oppOf player := by
                  rw [stepN_add]
                  exact p3 (by omega) (by rwa [← stepN_add])
                rw [hp3]
                unfold setCell
                rw [if_pos rfl]
              · have hqnotpush : ∀ j, j ≤ k →
                    q ≠ stepN (stepN t mv.direction mv.marbles.length)
                      mv.direction j := by
                  intro j hjk hq
                  rw [← stepN_add] at hq
                  rcases Nat.eq_zero_or_pos j with hj0 | hj0
                  · subst hj0
                    rw [Nat.add_zero] at hq
                    exact hqnotown mv.marbles.length (le_refl _) hq
                  · rcases eq_or_lt_of_le hjk with hjk' | hjk'
                    · subst hjk'
                      exact hqe hq
                    · exact hqi ⟨j, hj0, hjk', hq⟩
                rw [p4 q hqnotpush]
                unfold setCell
                rw [if_neg hqe,
                  if_neg (hqnotown mv.marbles.length (le_refl _)),
                  if_neg hqt]
      have hcountB : ∀ c, (marbleCount (applyMove b mv player).1 c : Int) =
          (marbleCount b c : Int) := by
        intro c
        rw [hmc, hmc]
        have hcong : validPositionsList.countP
            (fun q => decide ((applyMove b mv player).1.cells q = c)) =
            validPositionsList.countP (fun q => decide
              (setCell (setCell (setCell b.cells t EMPTY)
                (stepN t mv.direction mv.marbles.length) player)
                (stepN t mv.direction (mv.marbles.length + k)) (oppOf player)
                q = c)) := by
          refine List.countP_congr fun q _ => ?_
          rw [hcellsF, hfxB q]
        rw [hcong, count_update_int hendmem]
        have hbaseend : (setCell (setCell b.cells t EMPTY)
            (stepN t mv.direction mv.marbles.length) player)
            (stepN t mv.direction (mv.marbles.length + k)) =
            b.cells (stepN t mv.direction (mv.marbles.length + k)) := by
          unfold setCell
          rw [if_neg (fun hc => hn_ne_end hc.symm),
            if_neg (fun hc => htne_end hc.symm)]
        rw [hbaseend, hEend, hbase_count c, hAopp]
        omega
      have hscoreB : (applyMove b mv player).1.score = b.score := by
        rw [hscoreF, if_neg (by rintro ⟨_, h2⟩; exact h2 hvend)]
      have houtB : (applyMove b mv player).2.pushoff = false := by
        rw [houtF, decide_eq_false (by rintro ⟨_, h2⟩; exact h2 hvend)]
      refine ⟨?_, ?_, ?_⟩
      · intro c _
        rw [hcountB c, hscoreB]
      · rw [hscoreB, houtB]
        simp
      · rw [hscoreB]
    · -- push with capture: the end marble falls off the board
      have hvend' : isValid (stepN t mv.direction (mv.marbles.length + k))
          = false := by
        cases hvv : isValid (stepN t mv.direction (mv.marbles.length + k))
        · rfl
        · exact absurd hvv hvend
      have hfxC : ∀ q,
          ((APList t mv.direction mv.marbles.length).reverse.foldl
            (ownStep player mv.direction)
            ((APList (stepN t mv.direction mv.marbles.length) mv.direction
              k).reverse.foldl (pushStep (oppOf player) mv.direction)
              b.cells)) q
          = setCell (setCell b.cells t EMPTY)
              (stepN t mv.direction mv.marbles.length) player q := by
        intro q
        by_cases hqt : q = t
        · subst hqt
          rw [o1 (by omega)]
          unfold setCell
          rw [if_neg htn, if_pos rfl]
        · by_cases hqj : ∃ j, 1 ≤ j ∧ j ≤ mv.marbles.length ∧
              q = stepN t mv.direction j
          · obtain ⟨j, hj1, hjn, hjq⟩ := hqj
            subst hjq
            rw [o2 j hj1 hjn]
            unfold setCell
            by_cases hjn' : j = mv.marbles.length
            · subst hjn'
              rw [if_pos rfl]
            · rw [if_neg (fun hc => hjn' (hinj' hc)),
                if_neg (fun hc => by
                  have : j = 0 := hinj' (by rwa [stepN_zero])
                  omega),
                (howncell j (by omega)).2]
          · have hqnotown : ∀ j, j ≤ mv.marbles.length →
                q ≠ stepN t mv.direction j := by
              intro j hjn hq
              rcases Nat.eq_zero_or_pos j with hj0 | hj0
              · subst hj0
                rw [stepN_zero] at hq
                exact hqt hq
              · exact hqj ⟨j, hj0, hjn, hq⟩
            rw [o3 q hqnotown]
            by_cases hqi : ∃ i, 1 ≤ i ∧ i < k ∧
                q = stepN t mv.direction (mv.marbles.length + i)
            · obtain ⟨i, hi1, hik, hiq⟩ := hqi
              subst hiq
              rw [hvalchain i hi1 hik]
              unfold setCell
              rw [if_neg (fun hc => by have := hinj' hc; omega),
                if_neg (fun hc => by
                  have : mv.marbles.length + i = 0 :=
                    hinj' (by rwa [stepN_zero])
                  omega)]
              exact ((hchainG i hik).2).symm
            · by_cases hqe : q = stepN t mv.direction (mv.marbles.length + k)
              · subst hqe
                have hp5 : ((APList (stepN t mv.direction mv.marbles.length)
                    mv.direction k).reverse.foldl
                    (pushStep (oppOf player) mv.direction) b.cells)
                    (stepN t mv.direction (mv.marbles.length + k))
                    = b.cells (stepN t mv.direction (mv.marbles.length + k))
                    := by
                  rw [stepN_add]
                  exact p5 (by omega) (by rwa [← stepN_add])
                rw [hp5]
                unfold setCell
                rw [if_neg (fun hc => hn_ne_end hc.symm),
                  if_neg (fun hc => htne_end hc.symm)]
              · have hqnotpush : ∀ j, j ≤ k →
                    q ≠ stepN (stepN t mv.direction mv.marbles.length)
                      mv.direction j := by
                  intro j hjk hq
                  rw [← stepN_add] at hq
                  rcases Nat.eq_zero_or_pos j with hj0 | hj0
                  · subst hj0
                    rw [Nat.add_zero] at hq
                    exact hqnotown mv.marbles.length (le_refl _) hq
                  · rcases eq_or_lt_of_le hjk with hjk' | hjk'
                    · subst hjk'
                      exact hqe hq
                    · exact hqi ⟨j, hj0, hjk', hq⟩
                rw [p4 q hqnotpush]
                unfold setCell
                rw [if_neg (hqnotown mv.marbles.length (le_refl _)),
                  if_neg hqt]
      have hcountC : ∀ c, (marbleCount (applyMove b mv player).1 c : Int) =
          (marbleCount b c : Int) + (if EMPTY = c then 1 else 0) -
            (if oppOf player = c then 1 else 0) := by
        intro c
        rw [hmc, hmc]
        have hcong : validPositionsList.countP
            (fun q => decide ((applyMove b mv player).1.cells q = c)) =
            validPositionsList.countP (fun q => decide
              (setCell (setCell b.cells t EMPTY)
                (stepN t mv.direction mv.marbles.length) player q = c)) := by
          refine List.countP_congr fun q _ => ?_
          rw [hcellsF, hfxC q]
        rw [hcong, hbase_count c, hAopp]
        omega
      have hscoreC : (applyMove b mv player).1.score =
          setScore b.score player (b.score player + 1) := by
        rw [hscoreF, if_pos ⟨hlist_ne.mpr (by omega), fun hc => by
          rw [hvend'] at hc
          exact Bool.false_ne_true hc⟩]
      have houtC : (applyMove b mv player).2.pushoff = true := by
        rw [houtF, decide_eq_true ⟨hlist_ne.mpr (by omega), fun hc => by
          rw [hvend'] at hc
          exact Bool.false_ne_true hc⟩]
      refine ⟨?_, ?_, ?_⟩
      · intro c hc
        rw [hcountC c, hscoreC]
        unfold setScore
        rcases hp with rfl | rfl <;> rcases hc with rfl | rfl <;>
          simp [oppOf, BLACK, WHITE, EMPTY] <;> omega
      · rw [hscoreC, houtC]
        unfold setScore
        rw [if_pos rfl]
        simp
      · rw [hscoreC]
        unfold setScore
        rw [if_neg hopp_ne_player]

/-- Claim C3: applying a legal move preserves, for each colour, the number
of marbles on the board plus the number of that colour pushed off (the
opposing player's score counter); the mover's score grows by exactly the
number of capture events reported for the move (the `pushoff` flag, 0 or 1),
and the opponent's score is unchanged. -/
theorem apply_move_conservation (b : Board) (mv : Move) (player : Int)
    (hp : player = BLACK ∨ player = WHITE)
    (hd : mv.direction ∈ DIRECTIONS)
    (hne : mv.marbles ≠ [])
    (hleg : isLegalMove b mv player = true) :
    (∀ c, c = BLACK ∨ c = WHITE →
      (marbleCount (applyMove b mv player).1 c : Int) +
        (applyMove b mv player).1.score (oppOf c) =
      (marbleCount b c : Int) + b.score (oppOf c)) ∧
    ((applyMove b mv player).1.score player =
      b.score player +
        (if (applyMove b mv player).2.pushoff = true then 1 else 0)) ∧
    ((applyMove b mv player).1.score (oppOf player) =
      b.score (oppOf player)) := by
  by_cases hinl : isInline mv = true
  · exact conservation_inline b mv player hp hd hne hleg hinl
  · have hinl' : isInline mv = false := by
      cases h : isInline mv
      · rfl
      · exact absurd h hinl
    obtain ⟨hcnt, hs, hout⟩ :=
      conservation_broadside b mv player hp hne hleg hinl'
    refine ⟨?_, ?_, by rw [hs]⟩
    · intro c _
      rw [hcnt c, hs]
    · rw [hs, hout]
      simp

/-- Capture scenario: black `e7,e8` push white `e9` off the east edge. -/
def c3Board : Board := boardOf [(4, 7), (4, 8)] [(4, 9)]

/-- The capturing push of the C3 scenario. -/
def c3Move : Move := ⟨[(4, 7), (4, 8)], (0, 1)⟩

theorem apply_move_conservation_witness :
    isLegalMove c3Board c3Move BLACK = true ∧
    ((marbleCount (applyMove c3Board c3Move BLACK).1 WHITE : Int) +
      (applyMove c3Board c3Move BLACK).1.score BLACK =
      (marbleCount c3Board WHITE : Int) + c3Board.score BLACK) ∧
    (applyMove c3Board c3Move BLACK).1.score BLACK =
      c3Board.score BLACK +
        (if (applyMove c3Board c3Move BLACK).2.pushoff = true
          then 1 else 0) := by
  have h := apply_move_conservation c3Board c3Move BLACK (Or.inl rfl)
    (by decide) (by decide) (by decide)
  refine ⟨by decide, ?_, h.2.1⟩
  have h1 := h.1 WHITE (Or.inr rfl)
  rwa [show oppOf WHITE = BLACK by decide] at h1

/-- Fail-soft alpha-beta specification relating a searched value `B` to the
true minimax value `T` for a window `(a, be)`: the value is exact inside
the window and a sound bound outside it. -/
def inv3 (a be B T : EV) : Prop :=
  (B ≤ a → T ≤ B) ∧ (a < B → B < be → B = T) ∧ (be ≤ B → B ≤ T)

theorem le_foldl_max (g : Move → EV) :
    ∀ (ms : List Move) (a : EV),
      a ≤ ms.foldl (fun acc mv => max acc (g mv)) a
  | [], a => le_refl a
  | mv :: rest, a =>
    le_trans (le_max_left a (g mv)) (le_foldl_max g rest (max a (g mv)))

theorem foldl_min_le (g : Move → EV) :
    ∀ (ms : List Move) (a : EV),
      ms.foldl (fun acc mv => min acc (g mv)) a ≤ a
  | [], a => le_refl a
  | mv :: rest, a =>
    le_trans (foldl_min_le g rest (min a (g mv))) (min_le_left a (g mv))

theorem abMaxLoop_cons_not_stopped (cfg : AgentConfig)
    (applyStep : Move → Board) (recAB : Board → EV → MMOut) (beta : EV)
    (mv : Move) (rest : List Move) (st : MMState)
    (h : st.stopped = false) :
    abMaxLoop cfg applyStep recAB beta (mv :: rest) st =
    abMaxLoop cfg applyStep recAB beta rest
      ⟨if (decide (st.best < (recAB (applyStep mv) st.bound).value) ||
          (decide ((recAB (applyStep mv) st.bound).value = st.best) &&
            preferByTieBreak cfg mv st.bestMove)) = true
        then (recAB (applyStep mv) st.bound).value else st.best,
       if (decide (st.best < (recAB (applyStep mv) st.bound).value) ||
          (decide ((recAB (applyStep mv) st.bound).value = st.best) &&
            preferByTieBreak cfg mv st.bestMove)) = true
        then some mv else st.bestMove,
       max st.bound
        (if (decide (st.best < (recAB (applyStep mv) st.bound).value) ||
            (decide ((recAB (applyStep mv) st.bound).value = st.best) &&
              preferByTieBreak cfg mv st.bestMove)) = true
          then (recAB (applyStep mv) st.bound).value else st.best),
       st.nodes + (recAB (applyStep mv) st.bound).nodes,
       decide (beta ≤ max st.bound
        (if (decide (st.best < (recAB (applyStep mv) st.bound).value) ||
            (decide ((recAB (applyStep mv) st.bound).value = st.best) &&
              preferByTieBreak cfg mv st.bestMove)) = true
          then (recAB (applyStep mv) st.bound).value else st.best))⟩ := by
  rw [abMaxLoop, if_neg (by rw [h]; exact Bool.false_ne_true)]

/-- Invariant of the maximizing alpha-beta loop: the loop\'s running best
value stays `inv3`-related to the max-fold of the children\'s true values. -/
theorem abMaxLoop_inv (cfg : AgentConfig) (applyStep : Move → Board)
    (recAB : Board → EV → MMOut) (fullV : Board → EV) (beta alpha0 : EV)
    (hab : alpha0 < beta)
    (hchild : ∀ cb a, a < beta → inv3 a beta (recAB cb a).value (fullV cb)) :
    ∀ (ms : List Move) (st : MMState) (accT : EV),
      st.bound = max alpha0 st.best →
      (st.stopped = false → st.bound < beta ∧ inv3 alpha0 beta st.best accT) →
      (st.stopped = true → beta ≤ st.best ∧ st.best ≤ accT) →
      inv3 alpha0 beta (abMaxLoop cfg applyStep recAB beta ms st).best
        (ms.foldl (fun acc mv => max acc (fullV (applyStep mv))) accT)
  | [], st, accT, _, hb, hs => by
    rw [abMaxLoop, List.foldl_nil]
    cases hstop : st.stopped with
    | false =>
      exact (hb hstop).2
    | true =>
      obtain ⟨h1, h2⟩ := hs hstop
      refine ⟨fun hc =>
        absurd (lt_of_lt_of_le hab (le_trans h1 hc)) (lt_irrefl _),
        ?_, fun _ => h2⟩
      intro _ hc
      exact absurd (lt_of_le_of_lt h1 hc) (lt_irrefl _)
  | mv :: rest, st, accT, hbound, hb, hs => by
    cases hstop : st.stopped with
    | true =>
      rw [abMaxLoop, if_pos hstop]
      obtain ⟨h1, h2⟩ := hs hstop
      have hT : accT ≤ (mv :: rest).foldl
          (fun acc mv => max acc (fullV (applyStep mv))) accT :=
        le_foldl_max _ _ _
      refine ⟨fun hc =>
        absurd (lt_of_lt_of_le hab (le_trans h1 hc)) (lt_irrefl _),
        ?_, fun _ => le_trans h2 hT⟩
      intro _ hc
      exact absurd (lt_of_le_of_lt h1 hc) (lt_irrefl _)
    | false =>
      rw [abMaxLoop_cons_not_stopped cfg applyStep recAB beta mv rest st hstop]
      simp only [List.foldl_cons]
      obtain ⟨hbb, hi⟩ := hb hstop
      have hc3 := hchild (applyStep mv) st.bound hbb
      set c := (recAB (applyStep mv) st.bound).value with hcdef
      set f := fullV (applyStep mv) with hfdef
      have hBbound : st.best ≤ st.bound := hbound ▸ le_max_right alpha0 st.best
      have hBb : st.best < beta := lt_of_le_of_lt hBbound hbb
      have hbest' :
          (if (decide (st.best < c) ||
              (decide (c = st.best) && preferByTieBreak cfg mv st.bestMove))
            = true then c else st.best) = max st.best c := by
        by_cases h1 : st.best < c
        · rw [if_pos (by rw [decide_eq_true h1]; rfl),
            max_eq_right (le_of_lt h1)]
        · by_cases h2 : c = st.best
          · rw [h2, max_self, ite_self]
          · rw [if_neg (by
              simp only [Bool.or_eq_true, decide_eq_true_eq,
                Bool.and_eq_true]
              rintro (hcc | ⟨hcc, _⟩)
              · exact h1 hcc
              · exact h2 hcc),
              max_eq_left (le_of_not_lt h1)]
      rw [hbest']
      refine abMaxLoop_inv cfg applyStep recAB fullV beta alpha0 hab hchild
        rest _ (max accT f) ?_ ?_ ?_
      · show max st.bound (max st.best c) = max alpha0 (max st.best c)
        rw [hbound, max_assoc, ← max_assoc st.best st.best c, max_self]
      · intro hns
        have hns' : ¬ (beta ≤ max st.bound (max st.best c)) := by
          have : decide (beta ≤ max st.bound (max st.best c)) = false := hns
          exact of_decide_eq_false this
        have hlt' : max st.bound (max st.best c) < beta := not_le.mp hns'
        refine ⟨hlt', ?_⟩
        have hmaxlt : max st.best c < beta :=
          lt_of_le_of_lt (le_max_right st.bound (max st.best c)) hlt'
        rcases le_or_lt c st.bound with hcase | hcase
        · have hfc : f ≤ c := hc3.1 hcase
          refine ⟨?_, ?_, ?_⟩
          · intro hle
            have hB0 : st.best ≤ alpha0 :=
              le_trans (le_max_left st.best c) hle
            have hc0 : c ≤ alpha0 := le_trans (le_max_right st.best c) hle
            exact max_le (le_trans (hi.1 hB0) (le_max_left st.best c))
              (le_trans hfc (le_max_right st.best c))
          · intro hgt hlt
            rcases le_or_lt c st.best with hcb | hcb
            · rw [max_eq_left hcb] at hgt hlt ⊢
              have hBT := hi.2.1 hgt hlt
              rw [← hBT, max_eq_left (le_trans hfc (hBT ▸ hcb))]
            · have hca : c ≤ alpha0 := by
                rcases le_total alpha0 st.best with h' | h'
                · rw [hbound, max_eq_right h'] at hcase
                  exact absurd hcase (not_le.mpr hcb)
                · rwa [hbound, max_eq_left h'] at hcase
              rw [max_eq_right (le_of_lt hcb)] at hgt
              exact absurd (lt_of_lt_of_le hgt hca) (lt_irrefl _)
          · intro hge
            exact absurd hge (not_le.mpr hmaxlt)
        · have hcb2 : c < beta :=
            lt_of_le_of_lt (le_max_right st.best c) hmaxlt
          have hcf := hc3.2.1 hcase hcb2
          have hBc : st.best < c := lt_of_le_of_lt hBbound hcase
          rw [max_eq_right (le_of_lt hBc)]
          refine ⟨?_, ?_, ?_⟩
          · intro hle
            have ha : alpha0 ≤ st.bound := hbound ▸ le_max_left alpha0 st.best
            exact absurd (lt_of_le_of_lt ha hcase) (not_lt.mpr hle)
          · intro _ _
            have hTc : accT ≤ c := by
              rcases le_or_lt st.best alpha0 with hB0 | hB0
              · have ha : alpha0 ≤ st.bound :=
                  hbound ▸ le_max_left alpha0 st.best
                exact le_trans (hi.1 hB0)
                  (le_trans hB0 (le_trans ha (le_of_lt hcase)))
              · rw [← hi.2.1 hB0 hBb]
                exact le_of_lt hBc
            rw [← hcf]
            exact (max_eq_right hTc).symm
          · intro hge
            exact absurd hge (not_le.mpr hcb2)
      · intro hst
        have hb' : beta ≤ max st.bound (max st.best c) := by
          have : decide (beta ≤ max st.bound (max st.best c)) = true := hst
          exact of_decide_eq_true this
        have hbc : beta ≤ max st.best c := by
          rcases le_total st.bound (max st.best c) with h' | h'
          · rwa [max_eq_right h'] at hb'
          · rw [max_eq_left h'] at hb'
            exact absurd (lt_of_le_of_lt hb' hbb) (lt_irrefl _)
        have hbcc : beta ≤ c := by
          rcases le_total st.best c with h' | h'
          · rwa [max_eq_right h'] at hbc
          · rw [max_eq_left h'] at hbc
            exact absurd (lt_of_le_of_lt hbc hBb) (lt_irrefl _)
        have hcf := hc3.2.2 hbcc
        refine ⟨hbc, ?_⟩
        rw [max_eq_right (le_trans (le_of_lt hBb) hbcc)]
        exact le_trans hcf (le_max_right accT f)

theorem abMinLoop_cons_not_stopped (cfg : AgentConfig)
    (applyStep : Move → Board) (recAB : Board → EV → MMOut) (alpha : EV)
    (mv : Move) (rest : List Move) (st : MMState)
    (h : st.stopped = false) :
    abMinLoop cfg applyStep recAB alpha (mv :: rest) st =
    abMinLoop cfg applyStep recAB alpha rest
      ⟨if (decide ((recAB (applyStep mv) st.bound).value < st.best) ||
          (decide ((recAB (applyStep mv) st.bound).value = st.best) &&
            preferByTieBreak cfg mv st.bestMove)) = true
        then (recAB (applyStep mv) st.bound).value else st.best,
       if (decide ((recAB (applyStep mv) st.bound).value < st.best) ||
          (decide ((recAB (applyStep mv) st.bound).value = st.best) &&
            preferByTieBreak cfg mv st.bestMove)) = true
        then some mv else st.bestMove,
       min st.bound
        (if (decide ((recAB (applyStep mv) st.bound).value < st.best) ||
            (decide ((recAB (applyStep mv) st.bound).value = st.best) &&
              preferByTieBreak cfg mv st.bestMove)) = true
          then (recAB (applyStep mv) st.bound).value else st.best),
       st.nodes + (recAB (applyStep mv) st.bound).nodes,
       decide (min st.bound
        (if (decide ((recAB (applyStep mv) st.bound).value < st.best) ||
            (decide ((recAB (applyStep mv) st.bound).value = st.best) &&
              preferByTieBreak cfg mv st.bestMove)) = true
          then (recAB (applyStep mv) st.bound).value else st.best) ≤ alpha)⟩ := by
  rw [abMinLoop, if_neg (by rw [h]; exact Bool.false_ne_true)]

/-- Invariant of the minimizing alpha-beta loop: the loop\'s running best
value stays `inv3`-related to the min-fold of the children\'s true values. -/
theorem abMinLoop_inv (cfg : AgentConfig) (applyStep : Move → Board)
    (recAB : Board → EV → MMOut) (fullV : Board → EV) (alpha beta0 : EV)
    (hab : alpha < beta0)
    (hchild : ∀ cb bt, alpha < bt → inv3 alpha bt (recAB cb bt).value (fullV cb)) :
    ∀ (ms : List Move) (st : MMState) (accT : EV),
      st.bound = min beta0 st.best →
      (st.stopped = false → alpha < st.bound ∧ inv3 alpha beta0 st.best accT) →
      (st.stopped = true → st.best ≤ alpha ∧ accT ≤ st.best) →
      inv3 alpha beta0 (abMinLoop cfg applyStep recAB alpha ms st).best
        (ms.foldl (fun acc mv => min acc (fullV (applyStep mv))) accT)
  | [], st, accT, _, hb, hs => by
    rw [abMinLoop, List.foldl_nil]
    cases hstop : st.stopped with
    | false =>
      exact (hb hstop).2
    | true =>
      obtain ⟨h1, h2⟩ := hs hstop
      refine ⟨fun _ => h2, ?_, fun hge =>
        absurd (lt_of_lt_of_le hab (le_trans hge h1)) (lt_irrefl _)⟩
      intro hgt _
      exact absurd (lt_of_lt_of_le hgt h1) (lt_irrefl _)
  | mv :: rest, st, accT, hbound, hb, hs => by
    cases hstop : st.stopped with
    | true =>
      rw [abMinLoop, if_pos hstop]
      obtain ⟨h1, h2⟩ := hs hstop
      have hT : (mv :: rest).foldl
          (fun acc mv => min acc (fullV (applyStep mv))) accT ≤ accT :=
        foldl_min_le _ _ _
      refine ⟨fun _ => le_trans hT h2, ?_, fun hge =>
        absurd (lt_of_lt_of_le hab (le_trans hge h1)) (lt_irrefl _)⟩
      intro hgt _
      exact absurd (lt_of_lt_of_le hgt h1) (lt_irrefl _)
    | false =>
      rw [abMinLoop_cons_not_stopped cfg applyStep recAB alpha mv rest st hstop]
      simp only [List.foldl_cons]
      obtain ⟨hbb, hi⟩ := hb hstop
      have hc3 := hchild (applyStep mv) st.bound hbb
      set c := (recAB (applyStep mv) st.bound).value with hcdef
      set f := fullV (applyStep mv) with hfdef
      have hBbound : st.bound ≤ st.best := hbound ▸ min_le_right beta0 st.best
      have hBb : alpha < st.best := lt_of_lt_of_le hbb hBbound
      have hbest' :
          (if (decide (c < st.best) ||
              (decide (c = st.best) && preferByTieBreak cfg mv st.bestMove))
            = true then c else st.best) = min st.best c := by
        by_cases h1 : c < st.best
        · rw [if_pos (by rw [decide_eq_true h1]; rfl),
            min_eq_right (le_of_lt h1)]
        · by_cases h2 : c = st.best
          · rw [h2, min_self, ite_self]
          · rw [if_neg (by
              simp only [Bool.or_eq_true, decide_eq_true_eq,
                Bool.and_eq_true]
              rintro (hcc | ⟨hcc, _⟩)
              · exact h1 hcc
              · exact h2 hcc),
              min_eq_left (le_of_not_lt h1)]
      rw [hbest']
      refine abMinLoop_inv cfg applyStep recAB fullV alpha beta0 hab hchild
        rest _ (min accT f) ?_ ?_ ?_
      · show min st.bound (min st.best c) = min beta0 (min st.best c)
        rw [hbound, min_assoc, ← min_assoc st.best st.best c, min_self]
      · intro hns
        have hns' : ¬ (min st.bound (min st.best c) ≤ alpha) := by
          have : decide (min st.bound (min st.best c) ≤ alpha) = false := hns
          exact of_decide_eq_false this
        have hlt' : alpha < min st.bound (min st.best c) := not_le.mp hns'
        refine ⟨hlt', ?_⟩
        have hmingt : alpha < min st.best c :=
          lt_of_lt_of_le hlt' (min_le_right st.bound (min st.best c))
        rcases le_or_lt st.bound c with hcase | hcase
        · have hfc : c ≤ f := hc3.2.2 hcase
          refine ⟨?_, ?_, ?_⟩
          · intro hle
            exact absurd hle (not_le.mpr hmingt)
          · intro hgt hlt
            rcases le_or_lt st.best c with hcb | hcb
            · rw [min_eq_left hcb] at hgt hlt ⊢
              have hBT := hi.2.1 hgt hlt
              rw [← hBT, min_eq_left (le_trans hcb hfc)]
            · have hca : beta0 ≤ c := by
                rcases le_total beta0 st.best with h' | h'
                · rwa [hbound, min_eq_left h'] at hcase
                · rw [hbound, min_eq_right h'] at hcase
                  exact absurd hcase (not_le.mpr hcb)
              rw [min_eq_right (le_of_lt hcb)] at hlt
              exact absurd (lt_of_le_of_lt hca hlt) (lt_irrefl _)
          · intro hge
            have hgB : beta0 ≤ st.best :=
              le_trans hge (min_le_left st.best c)
            have hgc : beta0 ≤ c := le_trans hge (min_le_right st.best c)
            exact le_min
              (le_trans (min_le_left st.best c) (hi.2.2 hgB))
              (le_trans (min_le_right st.best c) hfc)
        · have hcgt : alpha < c := lt_of_lt_of_le hmingt
            (min_le_right st.best c)
          have hcf := hc3.2.1 hcgt hcase
          have hBc : c < st.best := lt_of_lt_of_le hcase hBbound
          rw [min_eq_right (le_of_lt hBc)]
          refine ⟨?_, ?_, ?_⟩
          · intro hle
            exact absurd hcgt (not_lt.mpr hle)
          · intro _ _
            have hTc : c ≤ accT := by
              rcases le_or_lt beta0 st.best with hB0 | hB0
              · exact le_trans (le_of_lt hcase)
                  (le_trans (hbound ▸ min_le_left beta0 st.best)
                    (le_trans hB0 (hi.2.2 hB0)))
              · rw [← hi.2.1 hBb hB0]
                exact le_of_lt hBc
            rw [← hcf]
            exact (min_eq_right hTc).symm
          · intro hge
            have hcb2 : c < beta0 := lt_of_lt_of_le hcase
              (hbound ▸ min_le_left beta0 st.best)
            exact absurd hge (not_le.mpr hcb2)
      · intro hst
        have ha' : min st.bound (min st.best c) ≤ alpha := by
          have : decide (min st.bound (min st.best c) ≤ alpha) = true := hst
          exact of_decide_eq_true this
        have hac : min st.best c ≤ alpha := by
          rcases le_total (min st.best c) st.bound with h' | h'
          · rwa [min_eq_right h'] at ha'
          · rw [min_eq_left h'] at ha'
            exact absurd (lt_of_lt_of_le hbb ha') (lt_irrefl _)
        have hcc : c ≤ alpha := by
          rcases le_total c st.best with h' | h'
          · rwa [min_eq_right h'] at hac
          · rw [min_eq_left h'] at hac
            exact absurd (lt_of_lt_of_le hBb hac) (lt_irrefl _)
        have hcf := hc3.1 hcc
        refine ⟨hac, ?_⟩
        rw [min_eq_right (le_trans hcc (le_of_lt hBb))]
        exact le_trans (min_le_right accT f) hcf

theorem minimax_threeway (order : List Pos) (cfg : AgentConfig)
    (root : Int) :
    ∀ (depth : Nat) (b : Board) (toMove : Int) (alpha beta : EV),
      alpha < beta →
      inv3 alpha beta
        (minimaxABO order cfg root depth b toMove alpha beta).value
        (fullMinimaxO order cfg root depth b toMove)
  | 0, b, toMove, alpha, beta, _ => by
    simp only [minimaxABO, fullMinimaxO]
    exact ⟨fun _ => le_refl _, fun _ _ => rfl, fun _ => le_refl _⟩
  | depth + 1, b, toMove, alpha, beta, hab => by
    simp only [minimaxABO, fullMinimaxO]
    by_cases ht : isTerminal b = true
    · rw [if_pos ht, if_pos ht]
      exact ⟨fun _ => le_refl _, fun _ _ => rfl, fun _ => le_refl _⟩
    · rw [if_neg ht, if_neg ht]
      by_cases he : (generateLegalMovesO order b toMove).isEmpty = true
      · rw [if_pos he, if_pos he]
        exact ⟨fun _ => le_refl _, fun _ _ => rfl, fun _ => le_refl _⟩
      · rw [if_neg he, if_neg he]
        by_cases hr : toMove = root
        · rw [if_pos hr, if_pos hr]
          exact abMaxLoop_inv cfg (fun mv => childBoard b mv toMove)
            (fun cb a => minimaxABO order cfg root depth cb
              (oppOf toMove) a beta)
            (fun cb => fullMinimaxO order cfg root depth cb (oppOf toMove))
            beta alpha hab
            (fun cb a ha =>
              minimax_threeway order cfg root depth cb (oppOf toMove) a beta ha)
            (orderedMoves b toMove (generateLegalMovesO order b toMove))
            ⟨⊥, none, alpha, 1, false⟩ ⊥
            (max_eq_left bot_le).symm
            (fun _ => ⟨hab,
              fun _ => le_refl _, fun _ _ => rfl, fun _ => le_refl _⟩)
            (fun h => absurd h Bool.false_ne_true)
        · rw [if_neg hr, if_neg hr]
          exact abMinLoop_inv cfg (fun mv => childBoard b mv toMove)
            (fun cb bt => minimaxABO order cfg root depth cb
              (oppOf toMove) alpha bt)
            (fun cb => fullMinimaxO order cfg root depth cb (oppOf toMove))
            alpha beta hab
            (fun cb bt hbt =>
              minimax_threeway order cfg root depth cb (oppOf toMove)
                alpha bt hbt)
            (orderedMoves b toMove (generateLegalMovesO order b toMove))
            ⟨⊤, none, beta, 1, false⟩ ⊤
            (min_eq_left le_top).symm
            (fun _ => ⟨hab,
              fun _ => le_refl _, fun _ _ => rfl, fun _ => le_refl _⟩)
            (fun h => absurd h Bool.false_ne_true)

/-- C4: for every board, player and configuration, `_minimax` called with
the full window `alpha = -inf`, `beta = +inf` returns the same value as the
unpruned full minimax recursion of equal depth over the same move ordering
and evaluation. -/
theorem alphabeta_equals_minimax (cfg : AgentConfig) (root : Int)
    (depth : Nat) (b : Board) (toMove : Int) :
    (minimaxAB cfg root depth b toMove ⊥ ⊤).value =
      fullMinimax cfg root depth b toMove := by
  have h := minimax_threeway validPositionsList cfg root depth b toMove
    ⊥ ⊤ bot_lt_top
  simp only [minimaxAB, fullMinimax]
  rcases le_or_lt
    (minimaxABO validPositionsList cfg root depth b toMove ⊥ ⊤).value ⊥
    with h1 | h1
  · have hv := le_bot_iff.mp h1
    have ht := le_bot_iff.mp (le_trans (h.1 h1) h1)
    rw [hv, ht]
  · rcases lt_or_le
      (minimaxABO validPositionsList cfg root depth b toMove ⊥ ⊤).value ⊤
      with h2 | h2
    · exact h.2.1 h1 h2
    · have hv := top_le_iff.mp h2
      have ht := top_le_iff.mp (le_trans h2 (h.2.2 h2))
      rw [hv, ht]

theorem abMaxLoop_mem (cfg : AgentConfig) (f : Move → Board)
    (recAB : Board → EV → MMOut) (beta : EV) :
    ∀ (ms : List Move) (st : MMState),
      (abMaxLoop cfg f recAB beta ms st).bestMove = st.bestMove ∨
      ∃ mv ∈ ms, (abMaxLoop cfg f recAB beta ms st).bestMove = some mv
  | [], st => by
    rw [abMaxLoop]
    exact Or.inl rfl
  | mv :: rest, st => by
    cases hstop : st.stopped with
    | true =>
      rw [abMaxLoop, if_pos hstop]
      exact Or.inl rfl
    | false =>
      rw [abMaxLoop_cons_not_stopped cfg f recAB beta mv rest st hstop]
      rcases abMaxLoop_mem cfg f recAB beta rest _ with h | ⟨m, hm, h⟩
      · by_cases hupd : (decide (st.best < (recAB (f mv) st.bound).value) ||
            (decide ((recAB (f mv) st.bound).value = st.best) &&
              preferByTieBreak cfg mv st.bestMove)) = true
        · exact Or.inr ⟨mv, List.mem_cons_self mv rest, h.trans (if_pos hupd)⟩
        · exact Or.inl (h.trans (if_neg hupd))
      · exact Or.inr ⟨m, List.mem_cons_of_mem mv hm, h⟩

theorem abMaxLoop_first (cfg : AgentConfig) (f : Move → Board)
    (recAB : Board → EV → MMOut) (beta : EV) (mv : Move) (rest : List Move)
    (st : MMState) (hstop : st.stopped = false) (hbot : st.best = ⊥)
    (hnone : st.bestMove = none) :
    ∃ m ∈ mv :: rest,
      (abMaxLoop cfg f recAB beta (mv :: rest) st).bestMove = some m := by
  have hupd : (decide (st.best < (recAB (f mv) st.bound).value) ||
      (decide ((recAB (f mv) st.bound).value = st.best) &&
        preferByTieBreak cfg mv st.bestMove)) = true := by
    rw [hbot, hnone]
    rcases eq_or_ne (recAB (f mv) st.bound).value ⊥ with hv | hv
    · rw [hv, Bool.or_eq_true]
      right
      rw [Bool.and_eq_true]
      exact ⟨decide_eq_true rfl, rfl⟩
    · rw [Bool.or_eq_true]
      left
      exact decide_eq_true (bot_lt_iff_ne_bot.mpr hv)
  rw [abMaxLoop_cons_not_stopped cfg f recAB beta mv rest st hstop]
  rcases abMaxLoop_mem cfg f recAB beta rest _ with h | ⟨m, hm, h⟩
  · exact ⟨mv, List.mem_cons_self mv rest, h.trans (if_pos hupd)⟩
  · exact ⟨m, List.mem_cons_of_mem mv hm, h⟩

/-- C10: on a non-terminal board (both scores below 6), with search depth
at least 1 and at least one legal move, `search_best_move` returns a
non-null move that is one of the generated legal moves. -/
theorem search_nonnull_move (b : Board) (player : Int) (cfg : AgentConfig)
    (hsb : b.score BLACK < 6) (hsw : b.score WHITE < 6)
    (hd : 1 ≤ cfg.depth)
    (hne : generateLegalMoves b player ≠ []) :
    ∃ mv, (searchBestMove b player cfg).move = some mv ∧
      mv ∈ generateLegalMoves b player := by
  rw [searchBestMove, searchBestMoveO]
  obtain ⟨d, hdep⟩ : ∃ d, cfg.depth = d + 1 := by
    cases hcd : cfg.depth with
    | zero => rw [hcd] at hd; omega
    | succ n => exact ⟨n, rfl⟩
  rw [hdep]
  simp only [minimaxABO]
  have ht : ¬ (isTerminal b = true) := by
    rw [isTerminal]
    simp only [decide_eq_true_eq]
    omega
  rw [if_neg ht]
  cases hlegal : generateLegalMovesO validPositionsList b player with
  | nil =>
    exact absurd (by rw [generateLegalMoves, hlegal]) hne
  | cons m0 ms =>
    rw [if_neg (by rw [List.isEmpty_cons]; exact Bool.false_ne_true),
      if_pos trivial]
    have hlen : (orderedMoves b player (m0 :: ms)).length =
        (m0 :: ms).length :=
      (List.perm_insertionSort _ _).length_eq
    cases hord : orderedMoves b player (m0 :: ms) with
    | nil =>
      rw [hord] at hlen
      exact absurd hlen (by simp)
    | cons mv rest =>
      obtain ⟨m, hm, hbm⟩ := abMaxLoop_first cfg
        (fun mv => childBoard b mv player)
        (fun cb a => minimaxABO validPositionsList cfg player d cb
          (oppOf player) a ⊤)
        ⊤ mv rest ⟨⊥, none, ⊥, 1, false⟩ rfl rfl rfl
      refine ⟨m, ?_, ?_⟩
      · exact hbm
      · have h1 : m ∈ orderedMoves b player (m0 :: ms) := hord ▸ hm
        have h2 : m ∈ m0 :: ms :=
          (List.perm_insertionSort _ (m0 :: ms)).mem_iff.mp h1
        show m ∈ generateLegalMovesO validPositionsList b player
        rw [hlegal]
        exact h2

/-- Concrete C10 scenario: a lone black marble at `e5`. -/
def c10Board : Board := boardOf [(4, 5)] []

/-- Depth-1 configuration for the C10 scenario. -/
def c10Cfg : AgentConfig := ⟨1, "balanced", "lexicographic"⟩

theorem search_nonnull_move_witness :
    ∃ mv, (searchBestMove c10Board BLACK c10Cfg).move = some mv ∧
      mv ∈ generateLegalMoves c10Board BLACK :=
  search_nonnull_move c10Board BLACK c10Cfg (by decide) (by decide)
    (by decide) (by decide)

theorem allSome_length {α : Type} : ∀ (l : List (Option α)) (xs : List α),
    l.allSome = some xs → xs.length = l.length
  | [], xs, h => by
    simp only [List.allSome, List.mapM_nil, pure, Option.some.injEq] at h
    rw [← h]
    rfl
  | o :: l, xs, h => by
    simp only [List.allSome, List.mapM_cons] at h
    cases o with
    | none => simp at h
    | some a =>
      cases hl : l.mapM id with
      | none => rw [hl] at h; simp at h
      | some rest =>
        rw [hl] at h
        simp only [Option.pure_def, Option.bind_eq_bind, Option.some_bind,
          Option.some.injEq, id] at h
        rw [← h, List.length_cons, List.length_cons,
          allSome_length l rest hl]

theorem build_success_count : ∀ (payload : Option MovePayload) (mv : Move),
    buildMoveFromPayload payload = (some mv, none) →
    1 ≤ mv.marbles.length ∧ mv.marbles.length ≤ 3
  | none, mv, h => by simp [buildMoveFromPayload] at h
  | some pl, mv, h => by
    cases hm : pl.marbles with
    | none => simp [buildMoveFromPayload, hm] at h
    | some ms =>
      by_cases hcount : 1 ≤ ms.length ∧ ms.length ≤ 3
      · by_cases hdup : ms.dedup.length ≠ ms.length
        · simp only [buildMoveFromPayload, hm] at h
          rw [if_neg (not_not_intro hcount), if_pos hdup] at h
          simp at h
        · cases hd : pl.direction with
          | none =>
            simp only [buildMoveFromPayload, hm] at h
            rw [if_neg (not_not_intro hcount), if_neg hdup, hd] at h
            simp at h
          | some dir =>
            rcases dir with _ | ⟨d0, _ | ⟨d1, _ | ⟨d2, dtl⟩⟩⟩
            · simp only [buildMoveFromPayload, hm] at h
              rw [if_neg (not_not_intro hcount), if_neg hdup, hd] at h
              simp at h
            · simp only [buildMoveFromPayload, hm] at h
              rw [if_neg (not_not_intro hcount), if_neg hdup, hd] at h
              simp at h
            · simp only [buildMoveFromPayload, hm] at h
              rw [if_neg (not_not_intro hcount), if_neg hdup, hd] at h
              cases hall : (ms.map strToPos).allSome with
              | none => rw [hall] at h; simp at h
              | some marbles =>
                rw [hall] at h
                have h1 : some (⟨marbles, (d0, d1)⟩ : Move) = some mv :=
                  congrArg Prod.fst h
                have h2 := Option.some.inj h1
                have hlen := allSome_length (ms.map strToPos) marbles hall
                rw [List.length_map] at hlen
                rw [← h2]
                show 1 ≤ marbles.length ∧ marbles.length ≤ 3
                rw [hlen]
                exact hcount
            · simp only [buildMoveFromPayload, hm] at h
              rw [if_neg (not_not_intro hcount), if_neg hdup, hd] at h
              simp at h
      · simp only [buildMoveFromPayload, hm] at h
        rw [if_pos hcount] at h
        simp at h

/-- The behaviour the amended claim attributes to the validator: malformed
payloads are rejected with the builder\'s specific message, a missing move
with "Move is missing.", and every well-formed but illegal move with the
single generic "Illegal move." reason. -/
def claimedValidate (b : Board) (player : Int)
    (payload : Option MovePayload) : Option Move × Option String :=
  match buildMoveFromPayload payload with
  | (_, some err) => (none, some err)
  | (some mv, none) =>
    if isLegalMove b mv player then (some mv, none)
    else (none, some "Illegal move.")
  | (none, none) => (none, some "Move is missing.")

/-- C9 (amended): validation reports the builder\'s specific reason for a
malformed payload, but every legality failure — regardless of which rule is
violated — yields the one generic "Illegal move." string. -/
theorem validator_reasons_amended (b : Board) (player : Int)
    (payload : Option MovePayload) :
    validatePayloadMove b player payload = claimedValidate b player payload := by
  rw [validatePayloadMove, claimedValidate]
  cases hb : buildMoveFromPayload payload with
  | mk mvo erro =>
    cases erro with
    | some err => cases mvo <;> rfl
    | none =>
      cases mvo with
      | none => rfl
      | some mv =>
        obtain ⟨h1, h3⟩ := build_success_count payload mv hb
        simp only [validateMove]
        rw [if_neg (not_not_intro ⟨h1, h3⟩)]
        by_cases hl : isLegalMove b mv player = true
        · rw [if_neg (not_not_intro hl), if_pos hl]
        · rw [if_pos hl, if_neg hl]

/-- Concrete C9 scenario: black `e1,e2` facing white `e3,e4` (an
outnumbered 2-against-2 push east). -/
def c9Board : Board := boardOf [(4, 1), (4, 2)] [(4, 3), (4, 4)]

theorem validator_generic_illegal_reason :
    (validatePayloadMove emptyBoard BLACK
      (some ⟨some ["e5"], some [0, 1]⟩)).2 = some "Illegal move." ∧
    (validatePayloadMove c9Board BLACK
      (some ⟨some ["e1", "e2"], some [0, 1]⟩)).2 = some "Illegal move." ∧
    (buildMoveFromPayload (some ⟨some ["e5"], some [0, 1]⟩)).2 = none ∧
    (buildMoveFromPayload (some ⟨some ["e1", "e2"], some [0, 1]⟩)).2 = none ∧
    bget emptyBoard (4, 5) ≠ some BLACK ∧
    bget c9Board (4, 1) = some BLACK ∧
    bget c9Board (4, 2) = some BLACK := by
  exact ⟨rfl, rfl, rfl, rfl, by decide, rfl, rfl⟩

theorem sortPos_eq_of_perm (l₁ l₂ : List Pos) (hp : l₁.Perm l₂) :
    sortPos l₁ = sortPos l₂ :=
  List.eq_of_perm_of_sorted
    ((List.perm_insertionSort posLe l₁).trans
      (hp.trans (List.perm_insertionSort posLe l₂).symm))
    (List.sorted_insertionSort posLe l₁)
    (List.sorted_insertionSort posLe l₂)

theorem getMarblesO_perm (order₁ order₂ : List Pos)
    (h : order₁.Perm order₂) (b : Board) (player : Int) :
    getMarblesO order₁ b player = getMarblesO order₂ b player :=
  sortPos_eq_of_perm _ _ (h.filter _)

theorem marbleCountO_perm (order₁ order₂ : List Pos)
    (h : order₁.Perm order₂) (b : Board) (player : Int) :
    marbleCountO order₁ b player = marbleCountO order₂ b player :=
  h.countP_eq _

theorem generateLegalMovesO_perm (order₁ order₂ : List Pos)
    (h : order₁.Perm order₂) (b : Board) (player : Int) :
    generateLegalMovesO order₁ b player = generateLegalMovesO order₂ b player := by
  simp only [generateLegalMovesO]
  rw [getMarblesO_perm order₁ order₂ h]

theorem evaluateBoardO_perm (order₁ order₂ : List Pos)
    (h : order₁.Perm order₂) (b : Board) (player : Int) (preset : String) :
    evaluateBoardO order₁ b player preset =
      evaluateBoardO order₂ b player preset := by
  simp only [evaluateBoardO, materialAdvantageO, centerControlO, centerSumO,
    mobilityO]
  rw [marbleCountO_perm order₁ order₂ h b player,
    marbleCountO_perm order₁ order₂ h b (oppOf player),
    getMarblesO_perm order₁ order₂ h b player,
    getMarblesO_perm order₁ order₂ h b (oppOf player),
    generateLegalMovesO_perm order₁ order₂ h b player,
    generateLegalMovesO_perm order₁ order₂ h b (oppOf player)]

theorem abMaxLoop_congr (cfg : AgentConfig) (f : Move → Board)
    (rec₁ rec₂ : Board → EV → MMOut) (beta : EV)
    (h : ∀ cb a, rec₁ cb a = rec₂ cb a) :
    ∀ (ms : List Move) (st : MMState),
      abMaxLoop cfg f rec₁ beta ms st = abMaxLoop cfg f rec₂ beta ms st
  | [], st => by rw [abMaxLoop, abMaxLoop]
  | mv :: rest, st => by
    cases hstop : st.stopped with
    | true => rw [abMaxLoop, abMaxLoop, if_pos hstop, if_pos hstop]
    | false =>
      rw [abMaxLoop_cons_not_stopped cfg f rec₁ beta mv rest st hstop,
        abMaxLoop_cons_not_stopped cfg f rec₂ beta mv rest st hstop,
        h (f mv) st.bound]
      exact abMaxLoop_congr cfg f rec₁ rec₂ beta h rest _

theorem abMinLoop_congr (cfg : AgentConfig) (f : Move → Board)
    (rec₁ rec₂ : Board → EV → MMOut) (alpha : EV)
    (h : ∀ cb bt, rec₁ cb bt = rec₂ cb bt) :
    ∀ (ms : List Move) (st : MMState),
      abMinLoop cfg f rec₁ alpha ms st = abMinLoop cfg f rec₂ alpha ms st
  | [], st => by rw [abMinLoop, abMinLoop]
  | mv :: rest, st => by
    cases hstop : st.stopped with
    | true => rw [abMinLoop, abMinLoop, if_pos hstop, if_pos hstop]
    | false =>
      rw [abMinLoop_cons_not_stopped cfg f rec₁ alpha mv rest st hstop,
        abMinLoop_cons_not_stopped cfg f rec₂ alpha mv rest st hstop,
        h (f mv) st.bound]
      exact abMinLoop_congr cfg f rec₁ rec₂ alpha h rest _

theorem minimaxABO_perm (order₁ order₂ : List Pos) (h : order₁.Perm order₂)
    (cfg : AgentConfig) (root : Int) :
    ∀ (depth : Nat) (b : Board) (toMove : Int) (alpha beta : EV),
      minimaxABO order₁ cfg root depth b toMove alpha beta =
        minimaxABO order₂ cfg root depth b toMove alpha beta
  | 0, b, toMove, alpha, beta => by
    simp only [minimaxABO]
    rw [evaluateBoardO_perm order₁ order₂ h b root cfg.heuristic]
  | depth + 1, b, toMove, alpha, beta => by
    simp only [minimaxABO]
    rw [evaluateBoardO_perm order₁ order₂ h b root cfg.heuristic,
      generateLegalMovesO_perm order₁ order₂ h b toMove]
    by_cases ht : isTerminal b = true
    · rw [if_pos ht, if_pos ht]
    · rw [if_neg ht, if_neg ht]
      by_cases he : (generateLegalMovesO order₂ b toMove).isEmpty = true
      · rw [if_pos he, if_pos he]
      · rw [if_neg he, if_neg he]
        by_cases hr : toMove = root
        · rw [if_pos hr, if_pos hr,
            abMaxLoop_congr cfg (fun mv => childBoard b mv toMove)
              (fun cb a => minimaxABO order₁ cfg root depth cb
                (oppOf toMove) a beta)
              (fun cb a => minimaxABO order₂ cfg root depth cb
                (oppOf toMove) a beta)
              beta
              (fun cb a =>
                minimaxABO_perm order₁ order₂ h cfg root depth cb
                  (oppOf toMove) a beta)
              (orderedMoves b toMove (generateLegalMovesO order₂ b toMove))
              ⟨⊥, none, alpha, 1, false⟩]
        · rw [if_neg hr, if_neg hr,
            abMinLoop_congr cfg (fun mv => childBoard b mv toMove)
              (fun cb bt => minimaxABO order₁ cfg root depth cb
                (oppOf toMove) alpha bt)
              (fun cb bt => minimaxABO order₂ cfg root depth cb
                (oppOf toMove) alpha bt)
              alpha
              (fun cb bt =>
                minimaxABO_perm order₁ order₂ h cfg root depth cb
                  (oppOf toMove) alpha bt)
              (orderedMoves b toMove (generateLegalMovesO order₂ b toMove))
              ⟨⊤, none, beta, 1, false⟩]

/-- C8: for a fixed board, player and configuration, two search invocations
return the same chosen move and the same score: the result does not depend
on the cells-dict iteration order, the one run-to-run degree of freedom of
the Python search, as long as it enumerates the 61 valid positions. -/
theorem search_deterministic (order₁ order₂ : List Pos)
    (h₁ : order₁.Perm validPositionsList)
    (h₂ : order₂.Perm validPositionsList)
    (b : Board) (player : Int) (cfg : AgentConfig) :
    (searchBestMoveO order₁ b player cfg).move =
      (searchBestMoveO order₂ b player cfg).move ∧
    (searchBestMoveO order₁ b player cfg).score =
      (searchBestMoveO order₂ b player cfg).score := by
  have h := minimaxABO_perm order₁ order₂ (h₁.trans h₂.symm) cfg player
    cfg.depth b player ⊥ ⊤
  rw [searchBestMoveO, searchBestMoveO, h]
  exact ⟨rfl, rfl⟩

/-- Concrete C8 scenario: the same lone-marble position probed twice. -/
def c8Board : Board := boardOf [(4, 5)] []

/-- Depth-1 configuration for the C8 scenario. -/
def c8Cfg : AgentConfig := ⟨1, "balanced", "lexicographic"⟩

theorem search_deterministic_witness :
    (searchBestMoveO validPositionsList.reverse c8Board BLACK c8Cfg).move =
      (searchBestMoveO validPositionsList c8Board BLACK c8Cfg).move ∧
    (searchBestMoveO validPositionsList.reverse c8Board BLACK c8Cfg).score =
      (searchBestMoveO validPositionsList c8Board BLACK c8Cfg).score :=
  search_deterministic validPositionsList.reverse validPositionsList
    (List.reverse_perm validPositionsList) (List.Perm.refl validPositionsList)
    c8Board BLACK c8Cfg

end Abalone
